import Mathlib

/-!
# simple_list: a singly linked list over a fixed pool of items

Shallow embedding of `simple_list.c` / `simple_list.h`.

* A pointer into the item pool (`head`, `next`, the result of `list_find_avail`)
  is the index of the slot it points at; `NULL` is `none`.
* The list functions take the list structure itself, i.e. the pointee of a
  non-null `list` argument, and return the structure after the call.  The
  `list == NULL` guard of the C functions therefore has no counterpart; the
  `data == NULL` half of the same guard is kept (`data : Option payload`).
* A result `none` means that the C call has no defined result: a chain walk
  that never ends, an access outside the bound array, a read of `data`
  through the wrong type or past its end, or signed overflow of `n`.
* `unsigned int ref` is a `Nat` reduced modulo `2 ^ 32` where it is
  decremented or incremented; `int n` is an `Int` whose overflow is undefined.
* The embedding is of the build without `__linux__`, the configuration whose
  output `list_test` records: the mutex and the `gettimeofday` stamp of buffer
  items, which no list function reads, are absent.
-/

namespace SimpleList

/-! ## Constants and data model (simple_list.h) -/

def LIST_UNDEF : Nat := 0
def LIST_BYTE : Nat := 1
def LIST_MSG : Nat := 2
def LIST_BUF : Nat := 3

/-- Size of the byte array of a buffer item: `150*1024`. -/
def ITEM_BUF_MAX_SIZE : Nat := 150 * 1024

/-- Number of values of `unsigned int`. -/
def UINT_RANGE : Nat := 2 ^ 32

/-- Largest `int`. -/
def INT_MAX : Int := 2 ^ 31 - 1

/-- Smallest `int`. -/
def INT_MIN : Int := -(2 ^ 31)

/-- The serial packet carried by a message item; the list only copies it. -/
structure mp_serial_intdata where
  head : Nat
  data_len : Nat
  type : Int
  id : Nat
  intdata : Nat
  crc8 : Nat
deriving DecidableEq, Repr

/-- Fields of `struct list_item_msg` after the common header. -/
structure msg_fields where
  pkt : mp_serial_intdata
  timestamp : Nat
  lasttx : Nat
  tx : Nat
  maxtx : Nat
  txtime : Nat
deriving DecidableEq, Repr

/-- Fields of an item after the common header, for each of the three item
structs: `list_item_byte`, `list_item_msg`, `list_item_buf`. -/
inductive item_fields where
  | byte (data : Nat)
  | msg (m : msg_fields)
  | buf (buf : List Nat) (len : Nat)
deriving DecidableEq, Repr

/-- One slot of the pool: `COMMON_HEADER` (`next`, `ref`) and the fields of
its item struct. -/
structure list_item where
  next : Option Nat
  ref : Nat
  fields : item_fields
deriving DecidableEq, Repr

/-- The object the `data` argument points at, read through the type the list
functions cast it to: an `unsigned char`, a whole `struct list_item_msg`
(header included), or an array of bytes. -/
inductive payload where
  | byte (c : Nat)
  | msg (next : Option Nat) (ref : Nat) (m : msg_fields)
  | buf (bytes : List Nat)
deriving DecidableEq, Repr

/-- The list structure `struct list_list`, with the bound array in place of
the pointer `itempool`. -/
structure list_list where
  head : Option Nat
  n : Int
  type : Nat
  itempool : List list_item
  poolsize : Nat
deriving DecidableEq, Repr

/-! ## Memory helpers -/

def zero_pkt : mp_serial_intdata :=
  { head := 0, data_len := 0, type := 0, id := 0, intdata := 0, crc8 := 0 }

def zero_msg : msg_fields :=
  { pkt := zero_pkt, timestamp := 0, lasttx := 0, tx := 0, maxtx := 0, txtime := 0 }

/-- An item struct of the given fields whose bytes are all zero. -/
def zero_item (f : item_fields) : list_item :=
  { next := none, ref := 0, fields := f }

/-- Result of `memset(itempool, 0, sizeof(item) * poolsize)`: the first
`poolsize` items are zero; undefined when the array is shorter. -/
def memset_zero (pool : List list_item) (f : item_fields) (poolsize : Nat) :
    Option (List list_item) :=
  if poolsize ≤ pool.length then
    some (List.replicate poolsize (zero_item f) ++ pool.drop poolsize)
  else none

/-- Assignment `p->next = nx` for the slot `p` of the pool. -/
def store_next (pool : List list_item) (p : Nat) (nx : Option Nat) : List list_item :=
  match pool[p]? with
  | none => pool
  | some it => pool.set p { it with next := nx }

/-- Loop `for (i = 0; i < poolsize; i++) if (p[i].ref == 0) return &p[i];`
followed by `return NULL`, entered at index `i` with `k` indices to go. -/
def scan_avail (pool : List list_item) : Nat → Nat → Option (Option Nat)
  | _, 0 => some none
  | i, k + 1 =>
    match pool[i]? with
    | none => none
    | some it => if it.ref = 0 then some (some i) else scan_avail pool (i + 1) k

/-- Loop `while (oldp->next != NULL) oldp = oldp->next;` from `oldp`, giving
the final `oldp`; `none` when it does not end within `fuel` nodes or leaves the
pool. -/
def walk_last (pool : List list_item) : Nat → Nat → Option Nat
  | 0, _ => none
  | fuel + 1, oldp =>
    match pool[oldp]? with
    | none => none
    | some it =>
      match it.next with
      | none => some oldp
      | some q => walk_last pool fuel q

/-- Loop `while (p->next) { prev = p; p = p->next; }` from `(prev, p)`, giving
the final `(prev, p)`. -/
def walk_last_prev (pool : List list_item) : Nat → Option Nat → Nat → Option (Option Nat × Nat)
  | 0, _, _ => none
  | fuel + 1, prev, p =>
    match pool[p]? with
    | none => none
    | some it =>
      match it.next with
      | none => some (prev, p)
      | some q => walk_last_prev pool fuel (some p) q

/-- The type dispatch shared by `list_append` (lines 115-156, `nx = NULL`) and
`list_prepend` (lines 195-235, `nx = oldhead`): the item `p` after it has been
filled from `data`, or the error code returned instead. -/
def fill_item (type : Nat) (p : list_item) (data : payload) (parm : Option Nat)
    (nx : Option Nat) : Option (Except Int list_item) :=
  if type = LIST_BYTE then
    match data with
    | .byte c => some (.ok { next := nx, ref := (p.ref + 1) % UINT_RANGE, fields := .byte c })
    | _ => none
  else if type = LIST_MSG then
    match data with
    | .msg _ r m => some (.ok { next := nx, ref := (r + 1) % UINT_RANGE, fields := .msg m })
    | _ => none
  else if type = LIST_BUF then
    match parm with
    | none => some (.error (-4))
    | some buflen =>
      if buflen > ITEM_BUF_MAX_SIZE then some (.error (-5))
      else
        match data, p.fields with
        | .buf bytes, .buf old _ =>
          if buflen ≤ bytes.length then
            some (.ok { next := nx, ref := (p.ref + 1) % UINT_RANGE,
                        fields := .buf (bytes.take buflen ++ old.drop buflen) buflen })
          else none
        | _, _ => none
  else some (.error (-3))

/-! ## The list functions (simple_list.c) -/

def list_reset (list : list_list) : Option list_list :=
  let list := { list with head := none, n := 0 }
  if list.type = LIST_BYTE then
    (memset_zero list.itempool (.byte 0) list.poolsize).map
      fun pool => { list with itempool := pool }
  else if list.type = LIST_MSG then
    (memset_zero list.itempool (.msg zero_msg) list.poolsize).map
      fun pool => { list with itempool := pool }
  else if list.type = LIST_BUF then
    (memset_zero list.itempool (.buf (List.replicate ITEM_BUF_MAX_SIZE 0) 0) list.poolsize).map
      fun pool => { list with itempool := pool }
  else some list

def list_init (list : list_list) (type : Nat) (itempool : List list_item) (poolsize : Nat) :
    Option list_list :=
  list_reset { list with itempool := itempool, type := type, poolsize := poolsize }

def list_find_avail (list : list_list) : Option (Option Nat) :=
  if list.type = LIST_BYTE then scan_avail list.itempool 0 list.poolsize
  else if list.type = LIST_MSG then scan_avail list.itempool 0 list.poolsize
  else if list.type = LIST_BUF then scan_avail list.itempool 0 list.poolsize
  else some none

def list_append (list : list_list) (data : Option payload) (parm : Option Nat) :
    Option (Int × list_list) :=
  match data with
  | none => some (-1, list)
  | some d =>
    match list_find_avail list with
    | none => none
    | some none => some (-2, list)
    | some (some item) =>
      match list.itempool[item]? with
      | none => none
      | some p =>
        match fill_item list.type p d parm none with
        | none => none
        | some (.error code) => some (code, list)
        | some (.ok p1) =>
          let pool := list.itempool.set item p1
          if list.n = INT_MAX then none
          else
            match list.head with
            | none => some (0, { list with itempool := pool, head := some item, n := list.n + 1 })
            | some h =>
              match walk_last pool pool.length h with
              | none => none
              | some oldp =>
                some (0, { list with itempool := store_next pool oldp (some item),
                                     n := list.n + 1 })

def list_prepend (list : list_list) (data : Option payload) (parm : Option Nat) :
    Option (Int × list_list) :=
  match data with
  | none => some (-1, list)
  | some d =>
    match list.head with
    | none => list_append list (some d) none
    | some oldhead =>
      match list_find_avail list with
      | none => none
      | some none => some (-2, list)
      | some (some item) =>
        match list.itempool[item]? with
        | none => none
        | some p =>
          match fill_item list.type p d parm (some oldhead) with
          | none => none
          | some (.error code) => some (code, list)
          | some (.ok p1) =>
            if list.n = INT_MAX then none
            else
              some (0, { list with itempool := list.itempool.set item p1,
                                   head := some item, n := list.n + 1 })

def list_remove_first (list : list_list) : Option (Int × list_list) :=
  match list.head with
  | none => some (-2, list)
  | some oldhead =>
    match list.itempool[oldhead]? with
    | none => none
    | some it =>
      if list.n = INT_MIN then none
      else
        some (0, { list with head := it.next,
                             itempool := list.itempool.set oldhead { it with next := none, ref := 0 },
                             n := list.n - 1 })

def list_remove_last (list : list_list) : Option (Int × list_list) :=
  match list.head with
  | none => some (-2, list)
  | some h =>
    match walk_last_prev list.itempool list.itempool.length none h with
    | none => none
    | some (prev, p) =>
      match list.itempool[p]? with
      | none => none
      | some it =>
        let pool := list.itempool.set p
          { it with next := none, ref := (it.ref + UINT_RANGE - 1) % UINT_RANGE }
        let pool := match prev with
          | none => pool
          | some q => store_next pool q none
        if list.n = INT_MIN then none
        else some (0, { list with itempool := pool, n := list.n - 1 })

/-- The pointer returned by `list_get_last` and the object `out` points at
after the call (`out = none` is `NULL`); `out` is an object outside the pool,
as `tmpmsg` is in `list_test`. -/
def list_get_last (list : list_list) (out : Option list_item) :
    Option (Option Nat × Option list_item) :=
  match list.head with
  | none => some (none, out)
  | some h =>
    match walk_last list.itempool list.itempool.length h with
    | none => none
    | some p =>
      match list.itempool[p]? with
      | none => none
      | some it =>
        match out with
        | none => some (some p, none)
        | some o =>
          if list.type = LIST_BYTE then some (some p, some it)
          else if list.type = LIST_MSG then some (some p, some it)
          else some (some p, some o)

/-- Loop `while (item != NULL) { ...; item = item->next; }` of `list_dump`:
the slots met from `item` on, each with its contents, in the order met; `none`
when the loop does not end within `fuel` slots or leaves the pool. -/
def walk_chain (pool : List list_item) : Nat → Option Nat → Option (List (Nat × list_item))
  | _, none => some []
  | 0, some _ => none
  | fuel + 1, some p =>
    match pool[p]? with
    | none => none
    | some it => (walk_chain pool fuel it.next).map fun rest => (p, it) :: rest

/-- The chain of the list: the slots walked from `head` via `next`. -/
def list_chain (list : list_list) : Option (List (Nat × list_item)) :=
  walk_chain list.itempool list.itempool.length list.head

/-- What `list_dump` prints for the items of a byte list: the pairs
`(item data, item addr)`, the address given as the slot index. -/
def list_dump (list : list_list) : Option (List (item_fields × Nat)) :=
  (list_chain list).map fun c => c.map fun x => (x.2.fields, x.1)

/-! ## Sequences of calls -/

/-- One call of the list interface on a list, with its arguments. -/
inductive call where
  | reset
  | append (data : Option payload) (parm : Option Nat)
  | prepend (data : Option payload) (parm : Option Nat)
  | remove_first
  | remove_last
deriving DecidableEq, Repr

/-- Return value and list after one call (`list_reset` returns nothing: 0). -/
def do_call (list : list_list) : call → Option (Int × list_list)
  | .reset => (list_reset list).map fun l => (0, l)
  | .append data parm => list_append list data parm
  | .prepend data parm => list_prepend list data parm
  | .remove_first => list_remove_first list
  | .remove_last => list_remove_last list

/-- Return values and final list of a sequence of calls made one after the
other; `none` as soon as one of them has no defined result. -/
def run_calls (list : list_list) : List call → Option (List Int × list_list)
  | [] => some ([], list)
  | c :: cs =>
    match do_call list c with
    | none => none
    | some (r, l1) => (run_calls l1 cs).map fun x => (r :: x.1, x.2)

/-- The call `list_append(list, &v, NULL)` for a byte `v`. -/
def append_byte (v : Nat) : call := .append (some (.byte v)) none

/-- The call `list_prepend(list, &v, NULL)` for a byte `v`. -/
def prepend_byte (v : Nat) : call := .prepend (some (.byte v)) none

/-! ## Occupancy, invariants and paths -/

/-- Contribution of one slot to the number of slots in use: 1 when the
slot exists and its `ref` is not 0. -/
def occ1 (o : Option list_item) : Nat :=
  match o with
  | some it => if it.ref = 0 then 0 else 1
  | none => 0

/-- Number of slots with `ref != 0` among the first `c` slots of the pool. -/
def occupied (pool : List list_item) : Nat → Nat
  | 0 => 0
  | c + 1 => occupied pool c + occ1 pool[c]?

/-- The count of a byte list of capacity `c` does not exceed the number of
slots in use among its `c` slots. -/
def cap_inv (c : Nat) (l : list_list) : Prop :=
  l.type = LIST_BYTE ∧ l.poolsize = c ∧ l.n ≤ (occupied l.itempool c : Int)

/-- Largest `unsigned short`, the type of `poolsize`. -/
def USHRT_MAX : Nat := 65535

/-- Slot `i` of a byte list after the bytes `us` were appended to it. -/
def app_item (us : List Nat) (i : Nat) : list_item :=
  { next := if i + 1 < us.length then some (i + 1) else none, ref := 1,
    fields := .byte (us.getD i 0) }

/-- Slot `i` of a byte list after the bytes `us` were prepended to it. -/
def pre_item (us : List Nat) (i : Nat) : list_item :=
  { next := if i = 0 then none else some (i - 1), ref := 1, fields := .byte (us.getD i 0) }

/-- The byte list to which the bytes `us` were appended, in that order, since
its reset: slot `i` holds `us[i]` and links to slot `i + 1`, the last one to
`NULL`; the slots from `us.length` up to `poolsize` are free. -/
def appended (l : list_list) (us : List Nat) : Prop :=
  l.type = LIST_BYTE ∧ l.poolsize ≤ l.itempool.length ∧ l.poolsize ≤ USHRT_MAX ∧
  us.length ≤ l.poolsize ∧ l.n = us.length ∧
  l.head = (if us.length = 0 then none else some 0) ∧
  (∀ i, i < us.length → l.itempool[i]? = some (app_item us i)) ∧
  (∀ i, us.length ≤ i → i < l.poolsize → ∃ it, l.itempool[i]? = some it ∧ it.ref = 0)

/-- The byte list to which the bytes `us` were prepended, in that order,
since its reset: slot `i` holds `us[i]` and links to slot `i - 1`, slot 0 to
`NULL`; `head` is the slot taken last. -/
def prepended (l : list_list) (us : List Nat) : Prop :=
  l.type = LIST_BYTE ∧ l.poolsize ≤ l.itempool.length ∧ l.poolsize ≤ USHRT_MAX ∧
  us.length ≤ l.poolsize ∧ l.n = us.length ∧
  l.head = (if us.length = 0 then none else some (us.length - 1)) ∧
  (∀ i, i < us.length → l.itempool[i]? = some (pre_item us i)) ∧
  (∀ i, us.length ≤ i → i < l.poolsize → ∃ it, l.itempool[i]? = some it ∧ it.ref = 0)

/-- The slot reached from slot `p` after following `next` exactly `k` times;
`none` when a `NULL` link or a slot outside the pool is met before. -/
def node_at (pool : List list_item) : Nat → Nat → Option Nat
  | p, 0 => some p
  | p, k + 1 =>
    match pool[p]? with
    | none => none
    | some it =>
      match it.next with
      | none => none
      | some q => node_at pool q k

/-! ## Concrete lists used to evaluate the code -/

/-- A list structure as `list_init` may find it: every field arbitrary. -/
def raw_list : list_list :=
  { head := some 7, n := 42, type := 0, itempool := [], poolsize := 0 }

/-- An array of `c` items as `list_init` may find it. -/
def raw_items (c : Nat) : List list_item :=
  List.replicate c { next := some 3, ref := 5, fields := .byte 9 }

/-- The byte list of one slot right after `list_init`. -/
def byte_list_1 : list_list :=
  { head := none, n := 0, type := LIST_BYTE, itempool := [zero_item (.byte 0)], poolsize := 1 }

/-- The list `byte_list_1` after `list_append` of the byte 7: one node, pool full. -/
def byte_list_1_full : list_list :=
  { head := some 0, n := 1, type := LIST_BYTE,
    itempool := [{ next := none, ref := 1, fields := .byte 7 }], poolsize := 1 }

/-- The list `byte_list_1_full` after `list_remove_last`: `head` still points
at slot 0, which is free again. -/
def byte_list_1_stale : list_list :=
  { head := some 0, n := 0, type := LIST_BYTE,
    itempool := [{ next := none, ref := 0, fields := .byte 7 }], poolsize := 1 }

/-- The buffer list of one slot right after `list_init`. -/
def buf_list_1 : list_list :=
  { head := none, n := 0, type := LIST_BUF,
    itempool := [zero_item (.buf (List.replicate ITEM_BUF_MAX_SIZE 0) 0)], poolsize := 1 }

/-- The byte item with the given link and data, in use. -/
def byte_item (nx : Option Nat) (d : Nat) : list_item :=
  { next := nx, ref := 1, fields := .byte d }

/-- The list of `list_test` after its first loop of appends. -/
def test_appended : list_list :=
  { head := some 0, n := 5, type := LIST_BYTE, poolsize := 5,
    itempool := [byte_item (some 1) 123, byte_item (some 2) 124, byte_item (some 3) 125,
      byte_item (some 4) 126, byte_item none 127] }

/-- The list of `list_test` after the `list_reset` that follows. -/
def test_reset : list_list :=
  { head := none, n := 0, type := LIST_BYTE, poolsize := 5,
    itempool := List.replicate 5 (zero_item (.byte 0)) }

/-- The list of `list_test` after its loop of prepends. -/
def test_prepended : list_list :=
  { head := some 4, n := 5, type := LIST_BYTE, poolsize := 5,
    itempool := [byte_item none 0, byte_item (some 0) 1, byte_item (some 1) 2,
      byte_item (some 2) 3, byte_item (some 3) 4] }

/-- The byte list of `list_test` at its last `list_dump`. -/
def test_final : list_list :=
  { head := some 3, n := 5, type := LIST_BYTE, poolsize := 5,
    itempool := [byte_item (some 4) 0, byte_item (some 0) 1, byte_item (some 1) 2,
      byte_item (some 2) 255, byte_item none 100] }

/-- The message list of two slots right after `list_init`. -/
def msg_list_2 : list_list :=
  { head := none, n := 0, type := LIST_MSG,
    itempool := [zero_item (.msg zero_msg), zero_item (.msg zero_msg)], poolsize := 2 }

/-- The message list of one slot right after `list_init`. -/
def msg_list_1 : list_list :=
  { head := none, n := 0, type := LIST_MSG,
    itempool := [zero_item (.msg zero_msg)], poolsize := 1 }

/-- A message whose own header has `ref = UINT_MAX`. -/
def msg_ref_max : payload :=
  .msg none 4294967295 zero_msg

/-- The list `msg_list_1` after `list_append` of `msg_ref_max`: one node in
slot 0, whose `ref` the increment has wrapped to 0. -/
def msg_list_1_linked : list_list :=
  { head := some 0, n := 1, type := LIST_MSG,
    itempool := [{ next := none, ref := 0, fields := .msg zero_msg }], poolsize := 1 }

/-- The list `msg_list_1_linked` after a further `list_append` or
`list_prepend` of `msg_ref_max`: slot 0 linked a second time, to itself. -/
def msg_list_1_twice : list_list :=
  { head := some 0, n := 2, type := LIST_MSG,
    itempool := [{ next := some 0, ref := 0, fields := .msg zero_msg }], poolsize := 1 }

/-- The list of tag `LIST_UNDEF` and one free slot, as `list_init` leaves it
on a zeroed array. -/
def undef_list_1 : list_list :=
  { head := none, n := 0, type := LIST_UNDEF, itempool := [zero_item (.byte 0)], poolsize := 1 }

/-- A list of tag `LIST_UNDEF` with one node in its one slot. -/
def undef_list_1_used : list_list :=
  { head := some 0, n := 1, type := LIST_UNDEF,
    itempool := [{ next := none, ref := 1, fields := .byte 7 }], poolsize := 1 }

/-- The buffer item holding the three bytes 1, 2, 3, in use. -/
def buf_item_123 : list_item :=
  { next := none, ref := 1,
    fields := .buf ([1, 2, 3].take 3 ++ (List.replicate ITEM_BUF_MAX_SIZE 0).drop 3) 3 }

/-- The buffer list `buf_list_1` after `list_append` of the three bytes
1, 2, 3: one node, pool full. -/
def buf_list_1_full : list_list :=
  { head := some 0, n := 1, type := LIST_BUF, itempool := [buf_item_123], poolsize := 1 }

/-- The buffer list of two slots with the bytes 1, 2, 3 in slot 0 and slot 1
free. -/
def buf_list_2 : list_list :=
  { head := some 0, n := 1, type := LIST_BUF, poolsize := 2,
    itempool := [buf_item_123, zero_item (.buf (List.replicate ITEM_BUF_MAX_SIZE 0) 0)] }

/-- The list `l` with `head` and `n` cleared and its first `poolsize` items
replaced by zeroed items of fields `f`: what `list_reset` makes of `l` when its
tag is the one of those items. -/
def zeroed (l : list_list) (f : item_fields) : list_list :=
  { head := none, n := 0, type := l.type, poolsize := l.poolsize,
    itempool := List.replicate l.poolsize (zero_item f) ++ l.itempool.drop l.poolsize }

/-- The slots met from the pointer `s` on by following `next` are those of
`c`, each with its item, in that order, and the `next` of the last of them (or
`s` itself when `c` is empty) is the pointer `e`. -/
def is_seg (pool : List list_item) : Option Nat → List (Nat × list_item) → Option Nat → Prop
  | s, [], e => s = e
  | s, x :: rest, e => s = some x.1 ∧ pool[x.1]? = some x.2 ∧ is_seg pool x.2.next rest e

/-- Well-formed list: the array holds the `poolsize` slots; the chain from
`head` ends, so it is a list `c` of slots, without repetition (acyclic); it has
exactly `n` nodes; every chain node is one of the `poolsize` slots and has
`ref == 1`; every other slot has `ref == 0`. -/
def well_formed (l : list_list) : Prop :=
  l.poolsize ≤ l.itempool.length ∧
  ∃ c, list_chain l = some c ∧ (c.map Prod.fst).Nodup ∧ l.n = c.length ∧
    (∀ x ∈ c, x.1 < l.poolsize ∧ x.2.ref = 1) ∧
    (∀ i it, i < l.poolsize → l.itempool[i]? = some it → (∀ x ∈ c, x.1 ≠ i) → it.ref = 0)

/-! ## Theorems -/

/-! ### The fuel of the chain walks

The walks of `list_append`, `list_remove_last`, `list_get_last` and
`list_dump` are given as many steps as the pool has slots.  A walk that ends
at all ends within that many steps, so `none` from such a walk means that the
C loop does not end (or leaves the pool), never that the fuel was too small. -/

theorem walk_last_mono (pool : List list_item) (fuel fuel1 p r : Nat)
    (h : walk_last pool fuel p = some r) (hle : fuel ≤ fuel1) :
    walk_last pool fuel1 p = some r := by
  induction fuel generalizing p fuel1 with
  | zero => simp [walk_last] at h
  | succ fuel ih =>
    cases fuel1 with
    | zero => omega
    | succ fuel1 =>
      unfold walk_last at h ⊢
      cases hp : pool[p]? with
      | none => simp [hp] at h
      | some it =>
        cases hn : it.next with
        | none => simpa [hp, hn] using h
        | some q =>
          simp only [hp, hn] at h ⊢
          exact ih fuel1 q h (by omega)

theorem node_at_succ (pool : List list_item) (p k : Nat) :
    node_at pool p (k + 1)
      = (node_at pool p k).bind fun q => (pool[q]?).bind fun it => it.next := by
  induction k generalizing p with
  | zero =>
    cases hp : pool[p]? with
    | none => simp [node_at, hp]
    | some it => cases hn : it.next <;> simp [node_at, hp, hn]
  | succ k ih =>
    cases hp : pool[p]? with
    | none => simp [node_at, hp]
    | some it =>
      cases hn : it.next with
      | none => simp [node_at, hp, hn]
      | some q =>
        have e1 : node_at pool p (k + 1 + 1) = node_at pool q (k + 1) := by
          rw [node_at]; simp [hp, hn]
        have e2 : node_at pool p (k + 1) = node_at pool q k := by
          rw [node_at]; simp [hp, hn]
        rw [e1, e2, ih q]

theorem node_at_add (pool : List list_item) (p i k : Nat) :
    node_at pool p (i + k) = (node_at pool p i).bind fun q => node_at pool q k := by
  induction i generalizing p with
  | zero => simp [node_at]
  | succ i ih =>
    have e : i + 1 + k = (i + k) + 1 := by omega
    rw [e]
    cases hp : pool[p]? with
    | none => simp [node_at, hp]
    | some it =>
      cases hn : it.next with
      | none => simp [node_at, hp, hn]
      | some q =>
        have e1 : node_at pool p (i + k + 1) = node_at pool q (i + k) := by
          rw [node_at]; simp [hp, hn]
        have e2 : node_at pool p (i + 1) = node_at pool q i := by
          rw [node_at]; simp [hp, hn]
        rw [e1, e2, ih q]

/-- A walk that ends at `r` reaches it after some `m` steps, `m` below the
fuel, through slots of the pool, and `r` has no successor. -/
theorem walk_last_path (pool : List list_item) (fuel p r : Nat)
    (h : walk_last pool fuel p = some r) :
    ∃ m, m < fuel ∧ node_at pool p m = some r ∧
      (∃ it, pool[r]? = some it ∧ it.next = none) ∧
      ∀ k, k ≤ m → ∃ q, node_at pool p k = some q ∧ q < pool.length := by
  induction fuel generalizing p with
  | zero => simp [walk_last] at h
  | succ fuel ih =>
    unfold walk_last at h
    split at h
    · simp at h
    · next it hit =>
      have hlen : p < pool.length := (List.getElem?_eq_some.mp hit).1
      split at h
      · next hn =>
        simp only [Option.some.injEq] at h
        subst h
        refine ⟨0, by omega, rfl, ⟨it, hit, hn⟩, ?_⟩
        intro k hk
        have : k = 0 := by omega
        subst this
        exact ⟨p, rfl, hlen⟩
      · next q hn =>
        obtain ⟨m, hm, hnode, hend, hall⟩ := ih q h
        refine ⟨m + 1, by omega, by simp [node_at, hit, hn, hnode], hend, ?_⟩
        intro k hk
        cases k with
        | zero => exact ⟨p, rfl, hlen⟩
        | succ k =>
          obtain ⟨q1, h1, h2⟩ := hall k (by omega)
          exact ⟨q1, by simp [node_at, hit, hn, h1], h2⟩

theorem walk_last_of_path (pool : List list_item) (fuel p r m : Nat) (hm : m < fuel)
    (hnode : node_at pool p m = some r) (hend : ∃ it, pool[r]? = some it ∧ it.next = none) :
    walk_last pool fuel p = some r := by
  induction m generalizing p fuel with
  | zero =>
    simp only [node_at, Option.some.injEq] at hnode
    subst hnode
    obtain ⟨it, hit, hn⟩ := hend
    cases fuel with
    | zero => omega
    | succ fuel =>
      unfold walk_last
      simp only [hit, hn]
  | succ m ih =>
    cases fuel with
    | zero => omega
    | succ fuel =>
      unfold node_at at hnode
      unfold walk_last
      cases hp : pool[p]? with
      | none => simp [hp] at hnode
      | some it =>
        cases hn : it.next with
        | none => simp [hp, hn] at hnode
        | some q =>
          simp only [hp, hn] at hnode ⊢
          exact ih fuel q (by omega) hnode

/-- The steps of a walk that ends are fewer than the slots of the pool. -/
theorem walk_last_path_short (pool : List list_item) (p r m : Nat)
    (hnode : node_at pool p m = some r) (hend : ∃ it, pool[r]? = some it ∧ it.next = none)
    (hall : ∀ k, k ≤ m → ∃ q, node_at pool p k = some q ∧ q < pool.length) :
    m < pool.length := by
  by_contra hge
  have hcard : (Finset.range pool.length).card < (Finset.range (m + 1)).card := by
    simp only [Finset.card_range]
    omega
  have hmaps : ∀ k ∈ Finset.range (m + 1),
      (node_at pool p k).getD 0 ∈ Finset.range pool.length := by
    intro k hk
    simp only [Finset.mem_range] at hk
    obtain ⟨q, hq1, hq2⟩ := hall k (by omega)
    simp [hq1, hq2]
  obtain ⟨i, hi, j, hj, hne, hij⟩ :=
    @Finset.exists_ne_map_eq_of_card_lt_of_maps_to Nat Nat (Finset.range (m + 1))
      (Finset.range pool.length) hcard (fun k => (node_at pool p k).getD 0) hmaps
  simp only [Finset.mem_range] at hi hj
  -- two steps `a < b` of the walk meet the same slot
  have key : ∀ a b, a < b → b ≤ m → node_at pool p a = node_at pool p b → False := by
    intro a b hab hbm heq
    have h1 : node_at pool p (a + (m - b)) = some r := by
      rw [node_at_add, heq, ← node_at_add]
      have : b + (m - b) = m := by omega
      rw [this, hnode]
    have h2 : node_at pool p (a + (m - b) + 1) = none := by
      obtain ⟨it, hit, hn⟩ := hend
      rw [node_at_succ, h1]
      simp [hit, hn]
    obtain ⟨q, hq, _⟩ := hall (a + (m - b) + 1) (by omega)
    rw [h2] at hq
    simp at hq
  have hsome : node_at pool p i = node_at pool p j := by
    obtain ⟨q1, h1, _⟩ := hall i (by omega)
    obtain ⟨q2, h2, _⟩ := hall j (by omega)
    simp only [h1, h2, Option.getD_some] at hij
    rw [h1, h2, hij]
  rcases Nat.lt_or_gt_of_ne hne with hlt | hgt
  · exact key i j hlt (by omega) hsome
  · exact key j i hgt (by omega) hsome.symm

/-- The fuel `pool.length` loses no result of `walk_last`. -/
theorem walk_last_fuel_enough (pool : List list_item) (fuel p r : Nat)
    (h : walk_last pool fuel p = some r) : walk_last pool pool.length p = some r := by
  obtain ⟨m, _, hnode, hend, hall⟩ := walk_last_path pool fuel p r h
  exact walk_last_of_path pool pool.length p r m
    (walk_last_path_short pool p r m hnode hend hall) hnode hend

theorem walk_last_prev_snd (pool : List list_item) (fuel : Nat) (prev : Option Nat) (p : Nat) :
    (walk_last_prev pool fuel prev p).map Prod.snd = walk_last pool fuel p := by
  induction fuel generalizing prev p with
  | zero => rfl
  | succ fuel ih =>
    unfold walk_last_prev walk_last
    cases hp : pool[p]? with
    | none => rfl
    | some it =>
      cases hn : it.next with
      | none => simp only [hn, Option.map_some']
      | some q =>
        simp only [hn]
        exact ih (some p) q

theorem walk_last_prev_mono (pool : List list_item) (fuel fuel1 : Nat) (prev : Option Nat)
    (p : Nat) (x : Option Nat × Nat) (h : walk_last_prev pool fuel prev p = some x)
    (hle : fuel ≤ fuel1) : walk_last_prev pool fuel1 prev p = some x := by
  induction fuel generalizing prev p fuel1 with
  | zero => simp [walk_last_prev] at h
  | succ fuel ih =>
    cases fuel1 with
    | zero => omega
    | succ fuel1 =>
      unfold walk_last_prev at h ⊢
      cases hp : pool[p]? with
      | none => simp [hp] at h
      | some it =>
        cases hn : it.next with
        | none => simpa [hp, hn] using h
        | some q =>
          simp only [hp, hn] at h ⊢
          exact ih fuel1 (some p) q h (by omega)

/-- The fuel `pool.length` loses no result of `walk_last_prev`. -/
theorem walk_last_prev_fuel_enough (pool : List list_item) (fuel : Nat) (prev : Option Nat)
    (p : Nat) (x : Option Nat × Nat) (h : walk_last_prev pool fuel prev p = some x) :
    walk_last_prev pool pool.length prev p = some x := by
  have h1 : walk_last pool fuel p = some x.2 := by
    rw [← walk_last_prev_snd pool fuel prev p, h]
    rfl
  have h2 := walk_last_fuel_enough pool fuel p x.2 h1
  rw [← walk_last_prev_snd pool pool.length prev p] at h2
  cases hy : walk_last_prev pool pool.length prev p with
  | none => simp [hy] at h2
  | some y =>
    have e1 := walk_last_prev_mono pool fuel (max fuel pool.length) prev p x h
      (Nat.le_max_left _ _)
    have e2 := walk_last_prev_mono pool pool.length (max fuel pool.length) prev p y hy
      (Nat.le_max_right _ _)
    rw [e1] at e2
    exact e2.symm

theorem walk_chain_mono (pool : List list_item) (fuel fuel1 : Nat) (s : Option Nat)
    (c : List (Nat × list_item)) (h : walk_chain pool fuel s = some c) (hle : fuel ≤ fuel1) :
    walk_chain pool fuel1 s = some c := by
  induction fuel generalizing s c fuel1 with
  | zero =>
    cases s with
    | none =>
      have : c = [] := by simpa [walk_chain] using h.symm
      subst this
      cases fuel1 <;> simp [walk_chain]
    | some p => simp [walk_chain] at h
  | succ fuel ih =>
    cases s with
    | none =>
      have : c = [] := by simpa [walk_chain] using h.symm
      subst this
      cases fuel1 <;> simp [walk_chain]
    | some p =>
      cases fuel1 with
      | zero => omega
      | succ fuel1 =>
        unfold walk_chain at h ⊢
        cases hp : pool[p]? with
        | none => simp [hp] at h
        | some it =>
          simp only [hp, Option.map_eq_some'] at h ⊢
          obtain ⟨rest, hrest, hc⟩ := h
          exact ⟨rest, ih fuel1 it.next rest hrest (by omega), hc⟩

theorem walk_chain_of_walk_last (pool : List list_item) (fuel p r : Nat)
    (h : walk_last pool fuel p = some r) : ∃ c, walk_chain pool fuel (some p) = some c := by
  induction fuel generalizing p with
  | zero => simp [walk_last] at h
  | succ fuel ih =>
    unfold walk_last at h
    unfold walk_chain
    cases hp : pool[p]? with
    | none => simp [hp] at h
    | some it =>
      cases hn : it.next with
      | none =>
        refine ⟨[(p, it)], ?_⟩
        cases fuel <;> simp [hn, walk_chain]
      | some q =>
        simp only [hp, hn] at h
        obtain ⟨c, hc⟩ := ih q h
        exact ⟨(p, it) :: c, by simp [hn, hc]⟩

theorem walk_last_of_walk_chain (pool : List list_item) (fuel p : Nat)
    (c : List (Nat × list_item)) (h : walk_chain pool fuel (some p) = some c) :
    ∃ r, walk_last pool fuel p = some r := by
  induction fuel generalizing p c with
  | zero => simp [walk_chain] at h
  | succ fuel ih =>
    unfold walk_chain at h
    unfold walk_last
    cases hp : pool[p]? with
    | none => simp [hp] at h
    | some it =>
      cases hn : it.next with
      | none => exact ⟨p, by simp only [hn]⟩
      | some q =>
        simp only [hp, hn, Option.map_eq_some'] at h ⊢
        obtain ⟨rest, hrest, _⟩ := h
        exact ih q rest hrest

/-- The fuel `pool.length` loses no result of `walk_chain`. -/
theorem walk_chain_fuel_enough (pool : List list_item) (fuel : Nat) (s : Option Nat)
    (c : List (Nat × list_item)) (h : walk_chain pool fuel s = some c) :
    walk_chain pool pool.length s = some c := by
  cases s with
  | none =>
    have : c = [] := by cases fuel <;> simpa [walk_chain] using h.symm
    subst this
    cases pool.length <;> simp [walk_chain]
  | some p =>
    obtain ⟨r, hr⟩ := walk_last_of_walk_chain pool fuel p c h
    obtain ⟨c1, hc1⟩ := walk_chain_of_walk_last pool pool.length p r
      (walk_last_fuel_enough pool fuel p r hr)
    have e1 := walk_chain_mono pool fuel (max fuel pool.length) (some p) c h
      (Nat.le_max_left _ _)
    have e2 := walk_chain_mono pool pool.length (max fuel pool.length) (some p) c1 hc1
      (Nat.le_max_right _ _)
    rw [e1] at e2
    rw [hc1, ← Option.some.inj e2]

/-! ### The scan for a free slot -/

theorem scan_avail_full (pool : List list_item) (k i : Nat)
    (h : ∀ j it, i ≤ j → j < i + k → pool[j]? = some it → it.ref ≠ 0)
    (hlen : i + k ≤ pool.length) : scan_avail pool i k = some none := by
  induction k generalizing i with
  | zero => rfl
  | succ k ih =>
    have hi : i < pool.length := by omega
    have hget : pool[i]? = some pool[i] := List.getElem?_eq_getElem hi
    have hne : pool[i].ref ≠ 0 := h i _ (Nat.le_refl i) (by omega) hget
    simp only [scan_avail, hget, if_neg hne]
    exact ih (i + 1) (fun j it h1 h2 h3 => h j it (by omega) (by omega) h3) (by omega)

theorem find_avail_full (l : list_list) (hsize : l.poolsize ≤ l.itempool.length)
    (hfull : ∀ i it, i < l.poolsize → l.itempool[i]? = some it → 1 ≤ it.ref) :
    list_find_avail l = some none := by
  have hs : scan_avail l.itempool 0 l.poolsize = some none :=
    scan_avail_full l.itempool l.poolsize 0
      (fun j it _ h2 h3 => by have := hfull j it (by omega) h3; omega) (by omega)
  unfold list_find_avail
  split
  · exact hs
  · split
    · exact hs
    · split
      · exact hs
      · rfl

theorem scan_avail_some (pool : List list_item) (k i j : Nat)
    (h : scan_avail pool i k = some (some j)) :
    i ≤ j ∧ j < i + k ∧ ∃ it, pool[j]? = some it ∧ it.ref = 0 := by
  induction k generalizing i with
  | zero => simp [scan_avail] at h
  | succ k ih =>
    unfold scan_avail at h
    split at h
    · simp at h
    · next it hit =>
      split at h
      · next h0 =>
        simp only [Option.some.injEq] at h
        subst h
        exact ⟨Nat.le_refl _, by omega, it, hit, h0⟩
      · have := ih (i + 1) h
        exact ⟨by omega, by omega, this.2.2⟩

theorem find_avail_some (l : list_list) (j : Nat) (h : list_find_avail l = some (some j)) :
    j < l.poolsize ∧ ∃ it, l.itempool[j]? = some it ∧ it.ref = 0 := by
  have hs : scan_avail l.itempool 0 l.poolsize = some (some j) := by
    unfold list_find_avail at h
    repeat' split at h
    all_goals first
      | exact h
      | simp at h
  have := scan_avail_some _ _ _ _ hs
  exact ⟨by omega, this.2.2⟩

theorem scan_avail_first (pool : List list_item) (k i j : Nat) (hij : i ≤ j) (hjk : j < i + k)
    (hused : ∀ t, i ≤ t → t < j → ∃ it, pool[t]? = some it ∧ it.ref ≠ 0)
    (hfree : ∃ it, pool[j]? = some it ∧ it.ref = 0) :
    scan_avail pool i k = some (some j) := by
  induction k generalizing i with
  | zero => omega
  | succ k ih =>
    unfold scan_avail
    by_cases h : i = j
    · subst h
      obtain ⟨it, hit, h0⟩ := hfree
      simp only [hit, h0, if_true]
    · obtain ⟨it, hit, h0⟩ := hused i (Nat.le_refl i) (by omega)
      simp only [hit, if_neg h0]
      exact ih (i + 1) (by omega) (by omega) (fun t h1 h2 => hused t (by omega) h2)

theorem find_avail_first (l : list_list) (j : Nat) (ht : l.type = LIST_BYTE)
    (hj : j < l.poolsize)
    (hused : ∀ t, t < j → ∃ it, l.itempool[t]? = some it ∧ it.ref ≠ 0)
    (hfree : ∃ it, l.itempool[j]? = some it ∧ it.ref = 0) :
    list_find_avail l = some (some j) := by
  unfold list_find_avail
  simp only [ht, if_true]
  exact scan_avail_first l.itempool l.poolsize 0 j (Nat.zero_le j) (by omega)
    (fun t _ h2 => hused t h2) hfree

/-! ### Failed calls leave the list as it was -/

theorem fill_item_code_ne_zero (type : Nat) (p : list_item) (d : payload) (parm nx : Option Nat)
    (code : Int) (h : fill_item type p d parm nx = some (.error code)) : code ≠ 0 := by
  unfold fill_item at h
  repeat' split at h
  all_goals simp at h
  all_goals omega

theorem append_error_unchanged (l l1 : list_list) (data : Option payload) (parm : Option Nat)
    (code : Int) (hc : code ≠ 0) (h : list_append l data parm = some (code, l1)) : l1 = l := by
  unfold list_append at h
  repeat' split at h
  all_goals first
    | (simp only [Option.some.injEq, Prod.mk.injEq] at h
       first
         | exact h.2.symm
         | exact absurd h.1.symm hc)
    | (simp at h; done)
    | (dsimp only at h
       split at h
       · simp at h
       · simp only [Option.some.injEq, Prod.mk.injEq] at h
         exact absurd h.1.symm hc)

theorem prepend_error_unchanged (l l1 : list_list) (data : Option payload) (parm : Option Nat)
    (code : Int) (hc : code ≠ 0) (h : list_prepend l data parm = some (code, l1)) : l1 = l := by
  unfold list_prepend at h
  split at h
  · simp_all
  · split at h
    · exact append_error_unchanged l l1 _ none code hc h
    · repeat' split at h
      all_goals simp_all

theorem remove_first_error_unchanged (l l1 : list_list) (code : Int) (hc : code ≠ 0)
    (h : list_remove_first l = some (code, l1)) : l1 = l := by
  unfold list_remove_first at h
  repeat' split at h
  all_goals simp_all

theorem remove_last_error_unchanged (l l1 : list_list) (code : Int) (hc : code ≠ 0)
    (h : list_remove_last l = some (code, l1)) : l1 = l := by
  unfold list_remove_last at h
  repeat' split at h
  all_goals simp_all

/-! ### What a successful call does -/

theorem append_ok_shape (l l1 : list_list) (data : Option payload) (parm : Option Nat)
    (h : list_append l data parm = some (0, l1)) :
    ∃ d item it p1, data = some d ∧ list_find_avail l = some (some item) ∧
      l.itempool[item]? = some it ∧ fill_item l.type it d parm none = some (.ok p1) ∧
      l.n ≠ INT_MAX ∧ l1.n = l.n + 1 ∧ l1.type = l.type ∧ l1.poolsize = l.poolsize ∧
      ((l.head = none ∧ l1.head = some item ∧ l1.itempool = l.itempool.set item p1) ∨
       (∃ hd oldp, l.head = some hd ∧
          walk_last (l.itempool.set item p1) (l.itempool.set item p1).length hd = some oldp ∧
          l1.head = some hd ∧
          l1.itempool = store_next (l.itempool.set item p1) oldp (some item))) := by
  unfold list_append at h
  split at h
  · simp at h
  · next d =>
    split at h
    · simp at h
    · simp at h
    · next item hf =>
      split at h
      · simp at h
      · next it hit =>
        split at h
        · simp at h
        · next code hfill =>
          simp only [Option.some.injEq, Prod.mk.injEq] at h
          exact absurd h.1 (fill_item_code_ne_zero _ _ _ _ _ _ hfill)
        · next p1 hfill =>
          dsimp only at h
          split at h
          · simp at h
          · next hn =>
            split at h
            · next hh =>
              simp only [Option.some.injEq, Prod.mk.injEq, true_and] at h
              subst h
              exact ⟨d, item, it, p1, rfl, hf, hit, hfill, hn, rfl, rfl, rfl,
                Or.inl ⟨hh, rfl, rfl⟩⟩
            · next hd hh =>
              split at h
              · simp at h
              · next oldp hw =>
                simp only [Option.some.injEq, Prod.mk.injEq, true_and] at h
                subst h
                exact ⟨d, item, it, p1, rfl, hf, hit, hfill, hn, rfl, rfl, rfl,
                  Or.inr ⟨hd, oldp, hh, hw, hh, rfl⟩⟩

theorem prepend_ok_shape (l l1 : list_list) (data : Option payload) (parm : Option Nat)
    (h : list_prepend l data parm = some (0, l1)) :
    (l.head = none ∧ ∃ d, data = some d ∧ list_append l (some d) none = some (0, l1)) ∨
    (∃ d oldhead item it p1, data = some d ∧ l.head = some oldhead ∧
      list_find_avail l = some (some item) ∧ l.itempool[item]? = some it ∧
      fill_item l.type it d parm (some oldhead) = some (.ok p1) ∧
      l.n ≠ INT_MAX ∧ l1.n = l.n + 1 ∧ l1.type = l.type ∧ l1.poolsize = l.poolsize ∧
      l1.head = some item ∧ l1.itempool = l.itempool.set item p1) := by
  unfold list_prepend at h
  split at h
  · simp at h
  · next d =>
    split at h
    · next hh => exact Or.inl ⟨hh, d, rfl, h⟩
    · next oldhead hh =>
      split at h
      · simp at h
      · simp at h
      · next item hf =>
        split at h
        · simp at h
        · next it hit =>
          split at h
          · simp at h
          · next code hfill =>
            simp only [Option.some.injEq, Prod.mk.injEq] at h
            exact absurd h.1 (fill_item_code_ne_zero _ _ _ _ _ _ hfill)
          · next p1 hfill =>
            split at h
            · simp at h
            · next hn =>
              simp only [Option.some.injEq, Prod.mk.injEq, true_and] at h
              subst h
              exact Or.inr ⟨d, oldhead, item, it, p1, rfl, hh, hf, hit, hfill, hn, rfl, rfl,
                rfl, rfl, rfl⟩

theorem remove_first_ok_shape (l l1 : list_list) (h : list_remove_first l = some (0, l1)) :
    ∃ oldhead it, l.head = some oldhead ∧ l.itempool[oldhead]? = some it ∧ l.n ≠ INT_MIN ∧
      l1.head = it.next ∧ l1.n = l.n - 1 ∧ l1.type = l.type ∧ l1.poolsize = l.poolsize ∧
      l1.itempool = l.itempool.set oldhead { it with next := none, ref := 0 } := by
  unfold list_remove_first at h
  split at h
  · simp at h
  · next oldhead hh =>
    split at h
    · simp at h
    · next it hit =>
      split at h
      · simp at h
      · next hn =>
        simp only [Option.some.injEq, Prod.mk.injEq, true_and] at h
        subst h
        exact ⟨oldhead, it, hh, hit, hn, rfl, rfl, rfl, rfl, rfl⟩

theorem remove_last_ok_shape (l l1 : list_list) (h : list_remove_last l = some (0, l1)) :
    ∃ hd prev p it, l.head = some hd ∧
      walk_last_prev l.itempool l.itempool.length none hd = some (prev, p) ∧
      l.itempool[p]? = some it ∧ l.n ≠ INT_MIN ∧
      l1.head = l.head ∧ l1.n = l.n - 1 ∧ l1.type = l.type ∧ l1.poolsize = l.poolsize ∧
      l1.itempool =
        (match prev with
         | none => l.itempool.set p
            { it with next := none, ref := (it.ref + UINT_RANGE - 1) % UINT_RANGE }
         | some q => store_next (l.itempool.set p
            { it with next := none, ref := (it.ref + UINT_RANGE - 1) % UINT_RANGE }) q none) := by
  unfold list_remove_last at h
  split at h
  · simp at h
  · next hd hh =>
    split at h
    · simp at h
    · next prev p hw =>
      split at h
      · simp at h
      · next it hit =>
        dsimp only at h
        split at h
        · simp at h
        · next hn =>
          simp only [Option.some.injEq, Prod.mk.injEq, true_and] at h
          subst h
          exact ⟨hd, prev, p, it, hh, hw, hit, hn, hh ▸ rfl, rfl, rfl, rfl, rfl⟩

theorem fill_item_byte (it p1 : list_item) (d : payload) (parm nx : Option Nat)
    (h : fill_item LIST_BYTE it d parm nx = some (.ok p1)) :
    ∃ c, d = .byte c ∧ p1 = { next := nx, ref := (it.ref + 1) % UINT_RANGE, fields := .byte c } := by
  unfold fill_item at h
  simp only [if_true] at h
  split at h
  · next c =>
    simp only [Option.some.injEq, Except.ok.injEq] at h
    exact ⟨c, rfl, h.symm⟩
  · simp at h

theorem fill_byte_free (it : list_item) (v : Nat) (nx : Option Nat) (href : it.ref = 0) :
    fill_item LIST_BYTE it (.byte v) none nx
      = some (.ok { next := nx, ref := 1, fields := .byte v }) := by
  simp [fill_item, href, UINT_RANGE]

theorem reset_byte (l l1 : list_list) (ht : l.type = LIST_BYTE) (h : list_reset l = some l1) :
    l.poolsize ≤ l.itempool.length ∧
    l1 = { head := none, n := 0, type := LIST_BYTE, poolsize := l.poolsize,
           itempool := List.replicate l.poolsize (zero_item (.byte 0))
                         ++ l.itempool.drop l.poolsize } := by
  unfold list_reset memset_zero at h
  simp only [ht, if_true] at h
  split at h
  · next hle =>
    simp only [Option.map_some', Option.some.injEq] at h
    exact ⟨hle, h.symm⟩
  · simp at h

theorem count_ne_int_max (n : Int) (k : Nat) (hn : n = k) (hk : k ≤ USHRT_MAX) : n ≠ INT_MAX := by
  unfold INT_MAX
  unfold USHRT_MAX at hk
  norm_num
  omega

/-! ### Walks along a chain of consecutive slots -/

theorem walk_last_run (pool : List list_item) (fuel i j : Nat) (hij : i ≤ j)
    (hfuel : j - i < fuel)
    (hlink : ∀ t, i ≤ t → t < j → ∃ it, pool[t]? = some it ∧ it.next = some (t + 1))
    (hend : ∃ it, pool[j]? = some it ∧ it.next = none) :
    walk_last pool fuel i = some j := by
  induction fuel generalizing i with
  | zero => omega
  | succ fuel ih =>
    unfold walk_last
    by_cases h : i = j
    · subst h
      obtain ⟨it, hit, h0⟩ := hend
      simp only [hit, h0]
    · obtain ⟨it, hit, h0⟩ := hlink i (Nat.le_refl i) (by omega)
      simp only [hit, h0]
      exact ih (i + 1) (by omega) (by omega) (fun t h1 h2 => hlink t (by omega) h2)

theorem getElem?_store_next (pool : List list_item) (p j : Nat) (nx : Option Nat) :
    (store_next pool p nx)[j]? =
      if j = p then (pool[p]?).map (fun it => { it with next := nx }) else pool[j]? := by
  unfold store_next
  cases hp : pool[p]? with
  | none =>
    by_cases hj : j = p
    · subst hj; simp [hp]
    · simp [hj]
  | some it =>
    have hlen : p < pool.length := (List.getElem?_eq_some.mp hp).1
    by_cases hj : j = p
    · subst hj; simp [List.getElem?_set_self hlen]
    · simp only [if_neg hj]
      exact List.getElem?_set_ne (fun h => hj h.symm)

theorem length_store_next (pool : List list_item) (p : Nat) (nx : Option Nat) :
    (store_next pool p nx).length = pool.length := by
  unfold store_next
  split <;> simp

theorem walk_chain_up (pool : List list_item) (f : Nat → list_item) (m i fuel : Nat)
    (hget : ∀ t, i ≤ t → t < i + m → pool[t]? = some (f t))
    (hnext : ∀ t, i ≤ t → t < i + m → (f t).next = if t + 1 < i + m then some (t + 1) else none)
    (hfuel : m ≤ fuel) :
    walk_chain pool fuel (if m = 0 then none else some i)
      = some ((List.range' i m).map fun t => (t, f t)) := by
  induction m generalizing i fuel with
  | zero => cases fuel <;> simp [walk_chain]
  | succ m ih =>
    cases fuel with
    | zero => omega
    | succ fuel =>
      have h1 := hget i (Nat.le_refl i) (by omega)
      have h2 := hnext i (Nat.le_refl i) (by omega)
      have h3 := ih (i + 1) fuel (fun t a b => hget t (by omega) (by omega))
        (fun t a b => by
          rw [hnext t (by omega) (by omega)]
          have : (t + 1 < i + (m + 1)) ↔ (t + 1 < i + 1 + m) := by omega
          simp only [this]) (by omega)
      have h4 : (f i).next = if m = 0 then none else some (i + 1) := by
        rw [h2]
        by_cases hm : m = 0
        · simp [hm]
        · have : i + 1 < i + (m + 1) := by omega
          simp [hm, this]
      simp only [Nat.succ_ne_zero, if_false, walk_chain, h1, h4, h3, List.range', List.map_cons,
        Option.map_some']

theorem walk_chain_down (pool : List list_item) (f : Nat → list_item) (m fuel : Nat)
    (hget : ∀ t, t < m → pool[t]? = some (f t))
    (hnext : ∀ t, t < m → (f t).next = if t = 0 then none else some (t - 1))
    (hfuel : m ≤ fuel) :
    walk_chain pool fuel (if m = 0 then none else some (m - 1))
      = some ((List.range m).reverse.map fun t => (t, f t)) := by
  induction m generalizing fuel with
  | zero => cases fuel <;> simp [walk_chain]
  | succ m ih =>
    cases fuel with
    | zero => omega
    | succ fuel =>
      have h1 := hget m (by omega)
      have h2 := hnext m (by omega)
      have h3 := ih fuel (fun t a => hget t (by omega)) (fun t a => hnext t (by omega))
        (by omega)
      simp only [Nat.succ_ne_zero, if_false, Nat.add_sub_cancel, walk_chain, h1, h2, h3,
        List.range_succ, List.reverse_append, List.reverse_cons, List.reverse_nil,
        List.nil_append, List.singleton_append, List.map_cons, Option.map_some']

theorem map_getD_range' (f : Nat → item_fields) (us : List Nat) :
    (List.range' 0 us.length).map (fun i => f (us.getD i 0)) = us.map f := by
  apply List.ext_getElem?
  intro n
  by_cases hn : n < us.length
  · simp [hn, List.getElem?_range', List.getElem?_eq_getElem hn]
  · have h1 : us.length ≤ n := by omega
    simp [List.getElem?_eq_none, h1]

/-! ### C1: order of the chain after appends -/

theorem appended_reset (l0 l : list_list) (ht : l0.type = LIST_BYTE)
    (hc : l0.poolsize ≤ USHRT_MAX) (h : list_reset l0 = some l) : appended l [] := by
  obtain ⟨hlen, rfl⟩ := reset_byte l0 l ht h
  refine ⟨rfl, ?_, hc, Nat.zero_le _, rfl, rfl, ?_, ?_⟩
  · simp only [List.length_append, List.length_replicate, List.length_drop]
    omega
  · intro i hi
    simp at hi
  · intro i _ hi
    refine ⟨zero_item (.byte 0), ?_, rfl⟩
    show (List.replicate l0.poolsize (zero_item (.byte 0)) ++ _)[i]? = _
    rw [List.getElem?_append_left (by simpa using hi)]
    exact List.getElem?_replicate_of_lt hi

theorem appended_step (l : list_list) (us : List Nat) (v : Nat) (h : appended l us)
    (hk : us.length < l.poolsize) :
    ∃ l1, list_append l (some (.byte v)) none = some (0, l1) ∧ appended l1 (us ++ [v]) ∧
      l1.poolsize = l.poolsize := by
  obtain ⟨ht, hlen, hus, hle, hn, hhead, hused, hfree⟩ := h
  have hf : list_find_avail l = some (some us.length) :=
    find_avail_first l us.length ht hk
      (fun t ht1 => ⟨app_item us t, hused t ht1, by simp [app_item]⟩)
      (hfree us.length (Nat.le_refl _) hk)
  obtain ⟨it, hit, href⟩ := hfree us.length (Nat.le_refl _) hk
  have hfill := fill_byte_free it v none href
  have hn1 : l.n ≠ INT_MAX := count_ne_int_max l.n us.length hn (by omega)
  have hklen : us.length < l.itempool.length := by omega
  unfold list_append
  simp only [hf, hit, ht, hfill, if_neg hn1]
  by_cases h0 : us.length = 0
  · have hnil : us = [] := List.length_eq_zero.mp h0
    subst hnil
    simp only [List.length_nil, if_true] at hhead
    simp only [hhead]
    have hklen0 : 0 < l.itempool.length := by simpa using hklen
    refine ⟨_, rfl, ⟨rfl, by simpa using hlen, hus, by simpa using hk, by simp [hn], by simp, ?_, ?_⟩,
      rfl⟩
    · intro i hi
      have hi0 : i = 0 := by simpa using hi
      subst hi0
      simp [List.getElem?_set_self hklen0, app_item]
    · intro i h1 h2
      have hne : 0 ≠ i := by simp at h1; omega
      simp only [List.length_nil]
      rw [List.getElem?_set_ne hne]
      exact hfree i (Nat.zero_le _) h2
  · simp only [if_neg h0] at hhead
    have hw : walk_last (l.itempool.set us.length { next := none, ref := 1, fields := .byte v })
        (l.itempool.set us.length { next := none, ref := 1, fields := .byte v }).length 0
        = some (us.length - 1) := by
      apply walk_last_run _ _ 0 (us.length - 1) (Nat.zero_le _)
      · simp only [List.length_set]; omega
      · intro t _ ht1
        have hlt2 : t + 1 < us.length := by omega
        refine ⟨app_item us t, ?_, by simp [app_item, hlt2]⟩
        rw [List.getElem?_set_ne (by omega)]
        exact hused t (by omega)
      · have hlt2 : ¬ (us.length - 1 + 1 < us.length) := by omega
        refine ⟨app_item us (us.length - 1), ?_, by simp [app_item, hlt2]⟩
        rw [List.getElem?_set_ne (by omega)]
        exact hused (us.length - 1) (by omega)
    simp only [hhead, hw]
    refine ⟨_, rfl, ⟨rfl, ?_, hus, by simpa using hk, by simp [hn], by simp, ?_, ?_⟩, rfl⟩
    · simpa [length_store_next] using hlen
    · intro i hi
      simp only [List.length_append, List.length_singleton] at hi
      simp only [getElem?_store_next]
      by_cases h1 : i = us.length - 1
      · have hne : us.length ≠ us.length - 1 := by omega
        have hlt : us.length - 1 < us.length := by omega
        rw [if_pos h1, List.getElem?_set_ne hne, hused _ hlt]
        subst h1
        have e1 : us.length - 1 + 1 = us.length := by omega
        simp [app_item, e1, List.getElem?_append_left hlt]
      · rw [if_neg h1]
        by_cases h2 : i = us.length
        · subst h2
          simp [app_item, List.getElem?_set_self hklen]
        · have hlt : i < us.length := by omega
          have hlt2 : i + 1 < us.length := by omega
          have hlt3 : i + 1 < us.length + 1 := by omega
          rw [List.getElem?_set_ne (by omega), hused i hlt]
          simp [app_item, hlt2, hlt3, List.getElem?_append_left hlt]
    · intro i h1 h2
      simp only [List.length_append, List.length_singleton] at h1
      rw [getElem?_store_next, if_neg (by omega), List.getElem?_set_ne (by omega)]
      exact hfree i (by omega) h2

theorem appended_run (vs : List Nat) (l : list_list) (us : List Nat) (h : appended l us)
    (hk : us.length + vs.length ≤ l.poolsize) :
    ∃ l1, run_calls l (vs.map append_byte) = some (List.replicate vs.length 0, l1) ∧
      appended l1 (us ++ vs) ∧ l1.poolsize = l.poolsize := by
  induction vs generalizing l us with
  | nil => exact ⟨l, rfl, by simpa using h, rfl⟩
  | cons v vs ih =>
    simp only [List.length_cons] at hk
    obtain ⟨l1, h1, hinv1, hp1⟩ := appended_step l us v h (by omega)
    obtain ⟨l2, h2, hinv2, hp2⟩ := ih l1 (us ++ [v]) hinv1 (by simp; omega)
    refine ⟨l2, ?_, by simpa using hinv2, by rw [hp2, hp1]⟩
    simp only [List.map_cons, run_calls, append_byte, do_call, h1]
    rw [h2]
    rfl

theorem appended_dump (l : list_list) (us : List Nat) (h : appended l us) :
    list_dump l = some ((List.range' 0 us.length).map
      fun i => (item_fields.byte (us.getD i 0), i)) := by
  obtain ⟨_, hlen, _, hle, _, hhead, hused, _⟩ := h
  have hw := walk_chain_up l.itempool (app_item us) us.length 0 l.itempool.length
    (fun t _ h2 => hused t (by omega))
    (fun t _ _ => by simp [app_item]) (by omega)
  unfold list_dump list_chain
  rw [hhead, hw]
  simp [app_item, Function.comp_def]

/-- C1. Order preservation for append: on a byte list that `list_reset` has
just emptied (`list_init` is `list_reset` on the newly bound structure), with
capacity `poolsize`, appending the bytes `vs`, no more of them than the
capacity, returns 0 every time, after which the count is their number and the
chain walked from `head` carries exactly `vs`, in that order. -/
theorem append_order (l0 l : list_list) (vs : List Nat)
    (ht : l0.type = LIST_BYTE) (hc : l0.poolsize ≤ USHRT_MAX)
    (hreset : list_reset l0 = some l) (hk : vs.length ≤ l0.poolsize) :
    ∃ l1, run_calls l (vs.map append_byte) = some (List.replicate vs.length 0, l1) ∧
      l1.n = vs.length ∧
      (list_dump l1).map (List.map Prod.fst) = some (vs.map item_fields.byte) := by
  have h0 := appended_reset l0 l ht hc hreset
  have hp : l.poolsize = l0.poolsize := by
    obtain ⟨_, rfl⟩ := reset_byte l0 l ht hreset
    rfl
  obtain ⟨l1, hrun, hinv, _⟩ := appended_run vs l [] h0 (by simp [hp]; omega)
  simp only [List.nil_append] at hinv
  refine ⟨l1, hrun, hinv.2.2.2.2.1, ?_⟩
  rw [appended_dump l1 vs hinv]
  simp only [Option.map_some', List.map_map, Function.comp_def]
  exact congrArg some (map_getD_range' item_fields.byte vs)

/-- Witness of C1: the first loop of `list_test`, five appends on a list of
capacity five right after `list_init`. -/
theorem append_order_witness :
    ∃ l1, run_calls test_reset ([123, 124, 125, 126, 127].map append_byte)
        = some (List.replicate 5 0, l1) ∧
      l1.n = (5 : Nat) ∧
      (list_dump l1).map (List.map Prod.fst)
        = some ([123, 124, 125, 126, 127].map item_fields.byte) :=
  append_order { raw_list with itempool := raw_items 5, type := LIST_BYTE, poolsize := 5 }
    test_reset [123, 124, 125, 126, 127] rfl (by decide) (by decide) (by decide)

/-! ### C2: order of the chain after prepends -/

theorem prepended_nil_iff (l : list_list) : prepended l [] ↔ appended l [] := by
  unfold prepended appended
  simp

theorem prepended_one_iff (l : list_list) (v : Nat) : prepended l [v] ↔ appended l [v] := by
  have hitem : ∀ i, i < 1 → pre_item [v] i = app_item [v] i := by
    intro i hi
    have : i = 0 := by omega
    subst this
    simp [pre_item, app_item]
  unfold prepended appended
  constructor
  · rintro ⟨h1, h2, h3, h4, h5, h6, h7, h8⟩
    exact ⟨h1, h2, h3, h4, h5, by simpa using h6,
      fun i hi => by rw [h7 i hi, hitem i (by simpa using hi)], h8⟩
  · rintro ⟨h1, h2, h3, h4, h5, h6, h7, h8⟩
    exact ⟨h1, h2, h3, h4, h5, by simpa using h6,
      fun i hi => by rw [h7 i hi, hitem i (by simpa using hi)], h8⟩

theorem prepended_step (l : list_list) (us : List Nat) (v : Nat) (h : prepended l us)
    (hk : us.length < l.poolsize) :
    ∃ l1, list_prepend l (some (.byte v)) none = some (0, l1) ∧ prepended l1 (us ++ [v]) ∧
      l1.poolsize = l.poolsize := by
  by_cases h0 : us.length = 0
  · have hnil : us = [] := List.length_eq_zero.mp h0
    subst hnil
    obtain ⟨l1, h1, hinv, hp⟩ := appended_step l [] v ((prepended_nil_iff l).mp h) hk
    have hhead : l.head = none := by simpa using h.2.2.2.2.2.1
    refine ⟨l1, ?_, (prepended_one_iff l1 v).mpr (by simpa using hinv), hp⟩
    unfold list_prepend
    simp only [hhead]
    exact h1
  · obtain ⟨ht, hlen, hus, hle, hn, hhead, hused, hfree⟩ := h
    simp only [if_neg h0] at hhead
    have hf : list_find_avail l = some (some us.length) :=
      find_avail_first l us.length ht hk
        (fun t ht1 => ⟨pre_item us t, hused t ht1, by simp [pre_item]⟩)
        (hfree us.length (Nat.le_refl _) hk)
    obtain ⟨it, hit, href⟩ := hfree us.length (Nat.le_refl _) hk
    have hfill := fill_byte_free it v (some (us.length - 1)) href
    have hn1 : l.n ≠ INT_MAX := count_ne_int_max l.n us.length hn (by omega)
    have hklen : us.length < l.itempool.length := by omega
    unfold list_prepend
    simp only [hhead, hf, hit, ht, hfill, if_neg hn1]
    refine ⟨_, rfl, ⟨rfl, by simpa using hlen, hus, by simpa using hk, by simp [hn], by simp, ?_, ?_⟩,
      rfl⟩
    · intro i hi
      simp only [List.length_append, List.length_singleton] at hi
      by_cases h2 : i = us.length
      · subst h2
        simp [pre_item, h0, List.getElem?_set_self hklen]
      · have hlt : i < us.length := by omega
        show (l.itempool.set us.length _)[i]? = _
        rw [List.getElem?_set_ne (by omega), hused i hlt]
        simp [pre_item, List.getElem?_append_left hlt]
    · intro i h1 h2
      simp only [List.length_append, List.length_singleton] at h1
      show ∃ it, (l.itempool.set us.length _)[i]? = some it ∧ it.ref = 0
      rw [List.getElem?_set_ne (by omega)]
      exact hfree i (by omega) h2

theorem prepended_run (vs : List Nat) (l : list_list) (us : List Nat) (h : prepended l us)
    (hk : us.length + vs.length ≤ l.poolsize) :
    ∃ l1, run_calls l (vs.map prepend_byte) = some (List.replicate vs.length 0, l1) ∧
      prepended l1 (us ++ vs) ∧ l1.poolsize = l.poolsize := by
  induction vs generalizing l us with
  | nil => exact ⟨l, rfl, by simpa using h, rfl⟩
  | cons v vs ih =>
    simp only [List.length_cons] at hk
    obtain ⟨l1, h1, hinv1, hp1⟩ := prepended_step l us v h (by omega)
    obtain ⟨l2, h2, hinv2, hp2⟩ := ih l1 (us ++ [v]) hinv1 (by simp; omega)
    refine ⟨l2, ?_, by simpa using hinv2, by rw [hp2, hp1]⟩
    simp only [List.map_cons, run_calls, prepend_byte, do_call, h1]
    rw [h2]
    rfl

theorem prepended_dump (l : list_list) (us : List Nat) (h : prepended l us) :
    list_dump l = some ((List.range us.length).reverse.map
      fun i => (item_fields.byte (us.getD i 0), i)) := by
  obtain ⟨_, hlen, _, hle, _, hhead, hused, _⟩ := h
  have hw := walk_chain_down l.itempool (pre_item us) us.length l.itempool.length
    (fun t h2 => hused t h2) (fun t _ => by simp [pre_item]) (by omega)
  unfold list_dump list_chain
  rw [hhead, hw]
  simp [pre_item, Function.comp_def]

/-- C2. Order preservation for prepend: on a byte list that `list_reset` has
just emptied (`list_init` is `list_reset` on the newly bound structure), with
capacity `poolsize`, prepending the bytes `vs`, no more of them than the
capacity, returns 0 every time, after which the count is their number and the
chain walked from `head` carries `vs` in reverse order. -/
theorem prepend_order (l0 l : list_list) (vs : List Nat)
    (ht : l0.type = LIST_BYTE) (hc : l0.poolsize ≤ USHRT_MAX)
    (hreset : list_reset l0 = some l) (hk : vs.length ≤ l0.poolsize) :
    ∃ l1, run_calls l (vs.map prepend_byte) = some (List.replicate vs.length 0, l1) ∧
      l1.n = vs.length ∧
      (list_dump l1).map (List.map Prod.fst) = some (vs.reverse.map item_fields.byte) := by
  have h0 := (prepended_nil_iff l).mpr (appended_reset l0 l ht hc hreset)
  have hp : l.poolsize = l0.poolsize := by
    obtain ⟨_, rfl⟩ := reset_byte l0 l ht hreset
    rfl
  obtain ⟨l1, hrun, hinv, _⟩ := prepended_run vs l [] h0 (by simp [hp]; omega)
  simp only [List.nil_append] at hinv
  refine ⟨l1, hrun, hinv.2.2.2.2.1, ?_⟩
  rw [prepended_dump l1 vs hinv]
  simp only [Option.map_some', List.map_map, Function.comp_def, List.map_reverse]
  rw [List.range_eq_range', map_getD_range' item_fields.byte vs]

/-- Witness of C2: the second loop of `list_test`, five prepends on a list of
capacity five right after `list_reset`. -/
theorem prepend_order_witness :
    ∃ l1, run_calls test_reset ([0, 1, 2, 3, 4].map prepend_byte)
        = some (List.replicate 5 0, l1) ∧
      l1.n = (5 : Nat) ∧
      (list_dump l1).map (List.map Prod.fst)
        = some ([0, 1, 2, 3, 4].reverse.map item_fields.byte) :=
  prepend_order test_appended test_reset [0, 1, 2, 3, 4] rfl (by decide) (by decide) (by decide)

/-! ### C3: pool exhaustion -/

theorem exhausted_of_full (l : list_list) (d : payload) (parm : Option Nat)
    (hsize : l.poolsize ≤ l.itempool.length)
    (hfull : ∀ i it, i < l.poolsize → l.itempool[i]? = some it → 1 ≤ it.ref) :
    list_append l (some d) parm = some (-2, l) ∧
    list_prepend l (some d) parm = some (-2, l) := by
  have hf := find_avail_full l hsize hfull
  have ha : ∀ q, list_append l (some d) q = some (-2, l) := by
    intro q
    simp only [list_append, hf]
  refine ⟨ha parm, ?_⟩
  unfold list_prepend
  cases hh : l.head with
  | none => simpa using ha none
  | some oldhead => simp only [hf]

/-- Pool exhaustion on a full pool: on a list whose `poolsize` slots all have
`ref >= 1` (whatever its variant tag), `list_append` and `list_prepend` with a
payload return -2 and leave the list, its count included, as it was. -/
theorem pool_exhausted (l : list_list) (d : payload) (parm : Option Nat)
    (hsize : l.poolsize ≤ l.itempool.length)
    (hfull : ∀ i it, i < l.poolsize → l.itempool[i]? = some it → 1 ≤ it.ref) :
    list_append l (some d) parm = some (-2, l) ∧
    list_prepend l (some d) parm = some (-2, l) :=
  exhausted_of_full l d parm hsize hfull

/-- The byte list of one slot after `list_init` and one append is full, so the second append or prepend (the capacity+1-th) returns
-2 and changes nothing. -/
theorem pool_exhausted_witness :
    list_init raw_list LIST_BYTE (raw_items 1) 1 = some byte_list_1 ∧
    list_append byte_list_1 (some (.byte 7)) none = some (0, byte_list_1_full) ∧
    list_append byte_list_1_full (some (.byte 8)) none = some (-2, byte_list_1_full) ∧
    list_prepend byte_list_1_full (some (.byte 8)) none = some (-2, byte_list_1_full) :=
  ⟨by decide, by decide,
    pool_exhausted byte_list_1_full (.byte 8) none (by decide)
      (by
        intro i it hi h
        have hi0 : i = 0 := by simpa [byte_list_1_full] using hi
        subst hi0
        simp [byte_list_1_full] at h
        subst h
        decide)⟩

/-- After `list_reset` of a byte list and as many appends as it has slots, a
further `list_append` or `list_prepend` returns -2 and changes nothing. -/
theorem append_beyond_capacity (l0 l : list_list) (vs : List Nat) (d : payload)
    (parm : Option Nat) (ht : l0.type = LIST_BYTE) (hc : l0.poolsize ≤ USHRT_MAX)
    (hreset : list_reset l0 = some l) (hk : vs.length = l0.poolsize) :
    ∃ l1, run_calls l (vs.map append_byte) = some (List.replicate vs.length 0, l1) ∧
      list_append l1 (some d) parm = some (-2, l1) ∧
      list_prepend l1 (some d) parm = some (-2, l1) := by
  have h0 := appended_reset l0 l ht hc hreset
  have hp : l.poolsize = l0.poolsize := by
    obtain ⟨_, rfl⟩ := reset_byte l0 l ht hreset
    rfl
  obtain ⟨l1, hrun, hinv, hp1⟩ := appended_run vs l [] h0 (by simp [hp]; omega)
  simp only [List.nil_append] at hinv
  obtain ⟨_, hlen, _, _, _, _, hused, _⟩ := hinv
  refine ⟨l1, hrun, exhausted_of_full l1 d parm hlen ?_⟩
  intro i it hi hit
  rw [hused i (by omega)] at hit
  cases hit
  exact Nat.le_refl 1

/-- After `list_reset` of a byte list and as many prepends as it has slots, a
further `list_append` or `list_prepend` returns -2 and changes nothing. -/
theorem prepend_beyond_capacity (l0 l : list_list) (vs : List Nat) (d : payload)
    (parm : Option Nat) (ht : l0.type = LIST_BYTE) (hc : l0.poolsize ≤ USHRT_MAX)
    (hreset : list_reset l0 = some l) (hk : vs.length = l0.poolsize) :
    ∃ l1, run_calls l (vs.map prepend_byte) = some (List.replicate vs.length 0, l1) ∧
      list_append l1 (some d) parm = some (-2, l1) ∧
      list_prepend l1 (some d) parm = some (-2, l1) := by
  have h0 := (prepended_nil_iff l).mpr (appended_reset l0 l ht hc hreset)
  have hp : l.poolsize = l0.poolsize := by
    obtain ⟨_, rfl⟩ := reset_byte l0 l ht hreset
    rfl
  obtain ⟨l1, hrun, hinv, hp1⟩ := prepended_run vs l [] h0 (by simp [hp]; omega)
  simp only [List.nil_append] at hinv
  obtain ⟨_, hlen, _, _, _, _, hused, _⟩ := hinv
  refine ⟨l1, hrun, exhausted_of_full l1 d parm hlen ?_⟩
  intro i it hi hit
  rw [hused i (by omega)] at hit
  cases hit
  exact Nat.le_refl 1

/-- C3, the code on a message list. On the message list of one slot right
after `list_init`, `list_append` of a message whose own header has
`ref = UINT_MAX` (or `list_prepend` of it) returns 0 and links slot 0, but
leaves it at `ref == 0`: the header is copied with the message and then
incremented. `list_find_avail` therefore hands out slot 0 again, and the
second insertion, the capacity+1-th after `list_init`, returns 0 by
`list_append` and by `list_prepend` alike instead of -2, taking the count to 2
on a capacity of 1. -/
theorem msg_insert_beyond_capacity_succeeds :
    list_init raw_list LIST_MSG (raw_items 1) 1 = some msg_list_1 ∧
    list_append msg_list_1 (some msg_ref_max) none = some (0, msg_list_1_linked) ∧
    list_prepend msg_list_1 (some msg_ref_max) none = some (0, msg_list_1_linked) ∧
    list_find_avail msg_list_1_linked = some (some 0) ∧
    list_append msg_list_1_linked (some msg_ref_max) none = some (0, msg_list_1_twice) ∧
    list_prepend msg_list_1_linked (some msg_ref_max) none = some (0, msg_list_1_twice) ∧
    msg_list_1_twice.n = 2 ∧ msg_list_1_twice.poolsize = 1 := by
  decide

/-! ### C4, C5, C6: `list_remove_last` on a chain of one node -/

/-- C4, the code on an empty list. On the empty byte list of one slot,
`list_append` followed by `list_remove_last`, both returning 0, restores the
count but not the chain: `head` was `NULL` and now points at slot 0, so the
chain has one node where it had none. -/
theorem append_remove_last_on_empty :
    list_append byte_list_1 (some (.byte 7)) none = some (0, byte_list_1_full) ∧
    list_remove_last byte_list_1_full = some (0, byte_list_1_stale) ∧
    byte_list_1.n = byte_list_1_stale.n ∧
    byte_list_1.head = none ∧ byte_list_1_stale.head = some 0 ∧
    list_chain byte_list_1 = some [] ∧
    list_chain byte_list_1_stale = some [(0, { next := none, ref := 0, fields := .byte 7 })] := by
  decide

/-- C5, the code on a chain of one node. On the one-node byte list
`byte_list_1_full`, `list_remove_last` returns 0 with count 0 and the slot
free, but `head` is left pointing at that slot; a following
`list_remove_last` or `list_remove_first` then returns 0 instead of -2, the
former wrapping `ref` to `2^32 - 1`, both taking the count to -1. -/
theorem remove_last_single_keeps_head :
    list_chain byte_list_1_full = some [(0, byte_item none 7)] ∧
    list_remove_last byte_list_1_full = some (0, byte_list_1_stale) ∧
    byte_list_1_stale.head = some 0 ∧
    byte_list_1_stale.n = 0 ∧
    byte_list_1_stale.itempool[0]? = some { next := none, ref := 0, fields := .byte 7 } ∧
    list_remove_last byte_list_1_stale
      = some (0, { byte_list_1_stale with
          n := -1, itempool := [{ next := none, ref := 4294967295, fields := .byte 7 }] }) ∧
    list_remove_first byte_list_1_stale = some (0, { byte_list_1 with
          n := -1, itempool := [{ next := none, ref := 0, fields := .byte 7 }] }) := by
  decide

/-- C6, the code after a removal that empties the list. The state reached from
`list_init` by one `list_append` and one `list_remove_last`, both returning 0,
has count 0 and no slot with `ref >= 1`, yet one slot is reachable from
`head`, and that slot has `ref == 0`. -/
theorem partition_broken_after_remove_last :
    (list_init raw_list LIST_BYTE (raw_items 1) 1).bind
        (fun l => run_calls l [append_byte 7, .remove_last])
      = some ([0, 0], byte_list_1_stale) ∧
    byte_list_1_stale.n = 0 ∧
    (byte_list_1_stale.itempool.filter (fun it => decide (1 ≤ it.ref))).length = 0 ∧
    list_chain byte_list_1_stale = some [(0, { next := none, ref := 0, fields := .byte 7 })] := by
  decide

/-! ### C7: the capacity bound -/

theorem occ1_le_one (o : Option list_item) : occ1 o ≤ 1 := by
  unfold occ1
  split
  · split <;> omega
  · omega

theorem occupied_le (pool : List list_item) (c : Nat) : occupied pool c ≤ c := by
  induction c with
  | zero => simp [occupied]
  | succ c ih =>
    have := occ1_le_one pool[c]?
    simp only [occupied]
    omega

theorem occupied_congr (pool pool1 : List list_item) (c : Nat)
    (h : ∀ j, j < c → pool1[j]? = pool[j]?) : occupied pool1 c = occupied pool c := by
  induction c with
  | zero => rfl
  | succ c ih =>
    simp only [occupied]
    rw [ih (fun j hj => h j (by omega)), h c (by omega)]

theorem occupied_set_ge (pool : List list_item) (c i : Nat) (x : list_item) (hi : c ≤ i) :
    occupied (pool.set i x) c = occupied pool c :=
  occupied_congr pool _ c (fun j hj => List.getElem?_set_ne (by omega))

theorem occupied_set_lt (pool : List list_item) (c i : Nat) (x : list_item)
    (hi : i < c) (hlen : i < pool.length) :
    occupied (pool.set i x) c + occ1 pool[i]? = occupied pool c + occ1 (some x) := by
  induction c with
  | zero => omega
  | succ c ih =>
    simp only [occupied]
    by_cases hic : i = c
    · subst hic
      rw [occupied_set_ge pool i i x (Nat.le_refl i), List.getElem?_set_self hlen]
      omega
    · rw [List.getElem?_set_ne hic]
      have := ih (by omega)
      omega

/-- Writing one slot lowers the number of slots in use by at most one. -/
theorem occupied_set_drop (pool : List list_item) (c i : Nat) (x : list_item) :
    occupied pool c ≤ occupied (pool.set i x) c + 1 := by
  by_cases hi : i < c
  · by_cases hlen : i < pool.length
    · have h1 := occupied_set_lt pool c i x hi hlen
      have h2 := occ1_le_one pool[i]?
      omega
    · rw [List.set_eq_of_length_le (by omega)]
      omega
  · rw [occupied_set_ge pool c i x (by omega)]
    omega

/-- Writing a slot without changing its `ref` keeps the number of slots in use. -/
theorem occupied_set_same_ref (pool : List list_item) (c i : Nat) (old x : list_item)
    (hold : pool[i]? = some old) (href : x.ref = old.ref) :
    occupied (pool.set i x) c = occupied pool c := by
  by_cases hi : i < c
  · have hlen : i < pool.length := (List.getElem?_eq_some.mp hold).1
    have h1 := occupied_set_lt pool c i x hi hlen
    rw [hold] at h1
    simp only [occ1, href] at h1
    omega
  · exact occupied_set_ge pool c i x (by omega)

theorem occupied_store_next (pool : List list_item) (c p : Nat) (nx : Option Nat) :
    occupied (store_next pool p nx) c = occupied pool c := by
  unfold store_next
  split
  · rfl
  · next it hit => exact occupied_set_same_ref pool c p it _ hit rfl

/-- Taking a free slot among the first `c` into use raises the number by one. -/
theorem occupied_set_take (pool : List list_item) (c i : Nat) (old x : list_item)
    (hi : i < c) (hold : pool[i]? = some old) (h0 : old.ref = 0) (h1 : x.ref ≠ 0) :
    occupied (pool.set i x) c = occupied pool c + 1 := by
  have hlen : i < pool.length := (List.getElem?_eq_some.mp hold).1
  have h := occupied_set_lt pool c i x hi hlen
  rw [hold] at h
  simp only [occ1, h0, if_neg h1] at h
  simpa using h

theorem cap_inv_reset (l l1 : list_list) (ht : l.type = LIST_BYTE)
    (h : list_reset l = some l1) : cap_inv l.poolsize l1 := by
  obtain ⟨_, rfl⟩ := reset_byte l l1 ht h
  refine ⟨rfl, rfl, ?_⟩
  show (0 : Int) ≤ _
  omega

theorem cap_inv_append (c : Nat) (l l1 : list_list) (data : Option payload) (parm : Option Nat)
    (code : Int) (hinv : cap_inv c l) (h : list_append l data parm = some (code, l1)) :
    cap_inv c l1 := by
  by_cases hc : code = 0
  · subst hc
    obtain ⟨ht, hp, hn⟩ := hinv
    obtain ⟨d, item, it, p1, _, hf, hit, hfill, _, hn1, ht1, hp1, hpool⟩ :=
      append_ok_shape l l1 data parm h
    obtain ⟨hlt, it0, hit0, href⟩ := find_avail_some l item hf
    rw [hit] at hit0
    cases hit0
    rw [ht] at hfill
    obtain ⟨b, _, rfl⟩ := fill_item_byte it _ d parm none hfill
    have hocc : occupied (l.itempool.set item
        { next := none, ref := (it.ref + 1) % UINT_RANGE, fields := .byte b }) c
        = occupied l.itempool c + 1 :=
      occupied_set_take l.itempool c item it _ (by omega) hit href
        (by simp [href, UINT_RANGE])
    refine ⟨by rw [ht1, ht], by rw [hp1, hp], ?_⟩
    rcases hpool with ⟨_, _, hpl⟩ | ⟨hd, oldp, _, _, _, hpl⟩
    · rw [hpl, hocc, hn1]
      omega
    · rw [hpl, occupied_store_next, hocc, hn1]
      omega
  · rw [append_error_unchanged l l1 data parm code hc h]
    exact hinv

theorem cap_inv_prepend (c : Nat) (l l1 : list_list) (data : Option payload) (parm : Option Nat)
    (code : Int) (hinv : cap_inv c l) (h : list_prepend l data parm = some (code, l1)) :
    cap_inv c l1 := by
  by_cases hc : code = 0
  · subst hc
    rcases prepend_ok_shape l l1 data parm h with ⟨_, d, _, happ⟩ |
      ⟨d, oldhead, item, it, p1, _, _, hf, hit, hfill, _, hn1, ht1, hp1, _, hpl⟩
    · exact cap_inv_append c l l1 (some d) none 0 hinv happ
    · obtain ⟨ht, hp, hn⟩ := hinv
      obtain ⟨hlt, it0, hit0, href⟩ := find_avail_some l item hf
      rw [hit] at hit0
      cases hit0
      rw [ht] at hfill
      obtain ⟨b, _, rfl⟩ := fill_item_byte it _ d parm (some oldhead) hfill
      have hocc : occupied (l.itempool.set item
          { next := some oldhead, ref := (it.ref + 1) % UINT_RANGE, fields := .byte b }) c
          = occupied l.itempool c + 1 :=
        occupied_set_take l.itempool c item it _ (by omega) hit href
          (by simp [href, UINT_RANGE])
      refine ⟨by rw [ht1, ht], by rw [hp1, hp], ?_⟩
      rw [hpl, hocc, hn1]
      omega
  · rw [prepend_error_unchanged l l1 data parm code hc h]
    exact hinv

theorem cap_inv_remove_first (c : Nat) (l l1 : list_list) (code : Int) (hinv : cap_inv c l)
    (h : list_remove_first l = some (code, l1)) : cap_inv c l1 := by
  by_cases hc : code = 0
  · subst hc
    obtain ⟨ht, hp, hn⟩ := hinv
    obtain ⟨oldhead, it, _, _, _, _, hn1, ht1, hp1, hpl⟩ := remove_first_ok_shape l l1 h
    refine ⟨by rw [ht1, ht], by rw [hp1, hp], ?_⟩
    have := occupied_set_drop l.itempool c oldhead { it with next := none, ref := 0 }
    rw [hpl, hn1]
    omega
  · rw [remove_first_error_unchanged l l1 code hc h]
    exact hinv

theorem cap_inv_remove_last (c : Nat) (l l1 : list_list) (code : Int) (hinv : cap_inv c l)
    (h : list_remove_last l = some (code, l1)) : cap_inv c l1 := by
  by_cases hc : code = 0
  · subst hc
    obtain ⟨ht, hp, hn⟩ := hinv
    obtain ⟨hd, prev, p, it, _, _, _, _, _, hn1, ht1, hp1, hpl⟩ := remove_last_ok_shape l l1 h
    refine ⟨by rw [ht1, ht], by rw [hp1, hp], ?_⟩
    have := occupied_set_drop l.itempool c p
      { it with next := none, ref := (it.ref + UINT_RANGE - 1) % UINT_RANGE }
    rw [hpl, hn1]
    cases prev with
    | none => dsimp only; omega
    | some q => dsimp only; rw [occupied_store_next]; omega
  · rw [remove_last_error_unchanged l l1 code hc h]
    exact hinv

theorem cap_inv_call (c : Nat) (l l1 : list_list) (k : call) (code : Int) (hinv : cap_inv c l)
    (h : do_call l k = some (code, l1)) : cap_inv c l1 := by
  cases k with
  | reset =>
    simp only [do_call, Option.map_eq_some', Prod.mk.injEq] at h
    obtain ⟨l2, hr, _, rfl⟩ := h
    have := cap_inv_reset l l2 hinv.1 hr
    rwa [hinv.2.1] at this
  | append data parm => exact cap_inv_append c l l1 data parm code hinv h
  | prepend data parm => exact cap_inv_prepend c l l1 data parm code hinv h
  | remove_first => exact cap_inv_remove_first c l l1 code hinv h
  | remove_last => exact cap_inv_remove_last c l l1 code hinv h

theorem cap_inv_run (c : Nat) (calls : List call) (l l1 : list_list) (rs : List Int)
    (hinv : cap_inv c l) (h : run_calls l calls = some (rs, l1)) : cap_inv c l1 := by
  induction calls generalizing l rs with
  | nil =>
    simp only [run_calls, Option.some.injEq, Prod.mk.injEq] at h
    rw [← h.2]
    exact hinv
  | cons k ks ih =>
    unfold run_calls at h
    split at h
    · simp at h
    · next r l2 hk =>
      simp only [Option.map_eq_some', Prod.mk.injEq] at h
      obtain ⟨x, hx, _, hx2⟩ := h
      exact ih l2 x.1 (cap_inv_call c l l2 k r hinv hk) (by rw [hx, ← hx2])

/-- C7. Capacity bound: after `list_init` of a byte list of capacity `c`,
every sequence of `list_reset`, `list_append`, `list_prepend`,
`list_remove_first` and `list_remove_last` calls (with any arguments, removals
on an empty list included) leaves `n <= c`, the capacity being unchanged; as
the sequence is arbitrary this is the state after every call. -/
theorem count_le_capacity (fifo : list_list) (items : List list_item) (c : Nat)
    (calls : List call) (l0 l : list_list) (rs : List Int)
    (hinit : list_init fifo LIST_BYTE items c = some l0)
    (hrun : run_calls l0 calls = some (rs, l)) :
    l.n ≤ (c : Int) ∧ l.poolsize = c := by
  have h0 : cap_inv c l0 := cap_inv_reset _ l0 rfl hinit
  obtain ⟨_, hp, hn⟩ := cap_inv_run c calls l0 l rs h0 hrun
  have := occupied_le l.itempool c
  exact ⟨by omega, hp⟩

/-- Witness of C7: on a one-slot byte list, two removals on the empty list,
two appends, a prepend and two more removals. -/
theorem count_le_capacity_witness :
    list_init raw_list LIST_BYTE (raw_items 1) 1 = some byte_list_1 ∧
    run_calls byte_list_1 [.remove_first, .remove_last, append_byte 7, append_byte 2,
        prepend_byte 3, .remove_last, .remove_first]
      = some ([-2, -2, 0, -2, -2, 0, 0], { byte_list_1 with
          n := -1, itempool := [{ next := none, ref := 0, fields := .byte 7 }] }) ∧
    ((-1 : Int) ≤ ((1 : Nat) : Int) ∧ 1 = 1) :=
  ⟨by decide, by decide,
   count_le_capacity raw_list (raw_items 1) 1
     [.remove_first, .remove_last, append_byte 7, append_byte 2, prepend_byte 3, .remove_last,
       .remove_first]
     byte_list_1
     { byte_list_1 with n := -1, itempool := [{ next := none, ref := 0, fields := .byte 7 }] }
     [-2, -2, 0, -2, -2, 0, 0] (by decide) (by decide)⟩

/-! ### C8: failure atomicity -/

/-- C8. Failure atomicity: whenever `list_append`, `list_prepend`,
`list_remove_first` or `list_remove_last` returns a non-zero code, the list
after the call (head, count and every slot of the pool) is the list before
it, for every list state, variant tag, payload and `parm`. -/
theorem failure_atomic (l l1 : list_list) (data : Option payload) (parm : Option Nat)
    (code : Int) (hc : code ≠ 0) :
    (list_append l data parm = some (code, l1) → l1 = l) ∧
    (list_prepend l data parm = some (code, l1) → l1 = l) ∧
    (list_remove_first l = some (code, l1) → l1 = l) ∧
    (list_remove_last l = some (code, l1) → l1 = l) :=
  ⟨append_error_unchanged l l1 data parm code hc,
   prepend_error_unchanged l l1 data parm code hc,
   remove_first_error_unchanged l l1 code hc,
   remove_last_error_unchanged l l1 code hc⟩

/-- Witness of C8: the four calls do fail, with -2, on a full one-slot list
(the insertions) and on the empty one (the removals). -/
theorem failure_atomic_witness :
    list_append byte_list_1_full (some (.byte 8)) none = some (-2, byte_list_1_full) ∧
    list_prepend byte_list_1_full (some (.byte 8)) none = some (-2, byte_list_1_full) ∧
    list_remove_first byte_list_1 = some (-2, byte_list_1) ∧
    list_remove_last byte_list_1 = some (-2, byte_list_1) ∧
    byte_list_1_full = byte_list_1_full :=
  ⟨by decide, by decide, by decide, by decide,
    (failure_atomic byte_list_1_full byte_list_1_full (some (.byte 8)) none (-2)
      (by decide)).1 (by decide)⟩

/-! ### C9: `list_prepend` on an empty chain -/

theorem fill_item_parm_unused (type : Nat) (p : list_item) (d : payload)
    (parm nx : Option Nat) (ht : type ≠ LIST_BUF) :
    fill_item type p d parm nx = fill_item type p d none nx := by
  unfold fill_item
  simp only [if_neg ht]

/-- On an empty chain `list_prepend` is `list_append` with `NULL` for `parm`;
the two agree with `list_append` on the same `parm` whenever the list is not
a buffer list or `parm` is `NULL`. -/
theorem prepend_empty_eq_append (l : list_list) (data : Option payload) (parm : Option Nat)
    (hhead : l.head = none) (h : l.type ≠ LIST_BUF ∨ parm = none) :
    list_prepend l data parm = list_append l data parm := by
  have h1 : list_prepend l data parm = list_append l data none := by
    unfold list_prepend
    cases data with
    | none => simp [list_append]
    | some d => simp only [hhead]
  rw [h1]
  rcases h with h | h
  · unfold list_append
    simp only [fill_item_parm_unused l.type _ _ parm none h]
  · rw [h]

/-- C9, the code on an empty buffer list. On the empty buffer list of one
slot, with a three-byte payload and `parm` pointing at the length 3,
`list_append` returns 0 and links slot 0, while `list_prepend`, which hands
`NULL` to `list_append` in place of `parm`, returns -4 and changes nothing. -/
theorem prepend_empty_buffer_drops_parm :
    list_init raw_list LIST_BUF (raw_items 1) 1 = some buf_list_1 ∧
    buf_list_1.head = none ∧
    (list_append buf_list_1 (some (.buf [1, 2, 3])) (some 3)).map (fun r => (r.1, r.2.head, r.2.n))
      = some (0, some 0, 1) ∧
    list_prepend buf_list_1 (some (.buf [1, 2, 3])) (some 3) = some (-4, buf_list_1) := by
  refine ⟨by rfl, by rfl, by decide, by rfl⟩

/-! ### C10: the byte scenario of `list_test` -/

/-- C10. The byte scenario of `list_test` on a pool of five items: after
`list_init` and `list_reset`, six appends of 123..128 return 0 five times and
then -2, and the dump reads 123..127 in slots 0..4; after `list_reset`, six
prepends of 0..5 return 0 five times and then -2, and the dump reads 4,3,2,1,0
in slots 4..0; then remove_first twice, prepend 255, append 99, append 123
(returns -2), remove_last, append 100 leave `n = 5` and the dump
255,2,1,0,100 with 255 in slot 3 and 100 in slot 4. -/
theorem list_test_byte_scenario (fifo : list_list) (items : List list_item)
    (h5 : items.length = 5) :
    ∃ l0 l1 l2 l3 l4 : list_list,
      (list_init fifo LIST_BYTE items 5).bind list_reset = some l0 ∧
      run_calls l0 ([123, 124, 125, 126, 127, 128].map append_byte)
        = some ([0, 0, 0, 0, 0, -2], l1) ∧
      list_dump l1 = some [(.byte 123, 0), (.byte 124, 1), (.byte 125, 2), (.byte 126, 3),
        (.byte 127, 4)] ∧
      list_reset l1 = some l2 ∧
      run_calls l2 ([0, 1, 2, 3, 4, 5].map prepend_byte) = some ([0, 0, 0, 0, 0, -2], l3) ∧
      list_dump l3 = some [(.byte 4, 4), (.byte 3, 3), (.byte 2, 2), (.byte 1, 1),
        (.byte 0, 0)] ∧
      run_calls l3 [.remove_first, .remove_first, prepend_byte 255, append_byte 99,
          append_byte 123, .remove_last, append_byte 100]
        = some ([0, 0, 0, 0, -2, 0, 0], l4) ∧
      l4.n = 5 ∧
      list_dump l4 = some [(.byte 255, 3), (.byte 2, 2), (.byte 1, 1), (.byte 0, 0),
        (.byte 100, 4)] := by
  have h0 : (list_init fifo LIST_BYTE items 5).bind list_reset
      = some { head := none, n := 0, type := LIST_BYTE,
               itempool := List.replicate 5 (zero_item (.byte 0)), poolsize := 5 } := by
    simp [list_init, list_reset, memset_zero, h5, LIST_BYTE, List.drop_of_length_le]
  exact ⟨_, test_appended, test_reset, test_prepended, test_final, h0,
    by decide, by decide, by decide, by decide, by decide, by decide, by decide, by decide⟩

/-- Witness of C10: the scenario on a structure and an array holding
arbitrary values before `list_init`. -/
theorem list_test_byte_scenario_witness :
    ∃ l0 l1 l2 l3 l4 : list_list,
      (list_init raw_list LIST_BYTE (raw_items 5) 5).bind list_reset = some l0 ∧
      run_calls l0 ([123, 124, 125, 126, 127, 128].map append_byte)
        = some ([0, 0, 0, 0, 0, -2], l1) ∧
      list_dump l1 = some [(.byte 123, 0), (.byte 124, 1), (.byte 125, 2), (.byte 126, 3),
        (.byte 127, 4)] ∧
      list_reset l1 = some l2 ∧
      run_calls l2 ([0, 1, 2, 3, 4, 5].map prepend_byte) = some ([0, 0, 0, 0, 0, -2], l3) ∧
      list_dump l3 = some [(.byte 4, 4), (.byte 3, 3), (.byte 2, 2), (.byte 1, 1),
        (.byte 0, 0)] ∧
      run_calls l3 [.remove_first, .remove_first, prepend_byte 255, append_byte 99,
          append_byte 123, .remove_last, append_byte 100]
        = some ([0, 0, 0, 0, -2, 0, 0], l4) ∧
      l4.n = 5 ∧
      list_dump l4 = some [(.byte 255, 3), (.byte 2, 2), (.byte 1, 1), (.byte 0, 0),
        (.byte 100, 4)] :=
  list_test_byte_scenario raw_list (raw_items 5) (by decide)

/-! ### C16: the slot found by `list_find_avail` -/

theorem scan_avail_defined (pool : List list_item) (k i : Nat) (hlen : i + k ≤ pool.length) :
    ∃ r, scan_avail pool i k = some r := by
  induction k generalizing i with
  | zero => exact ⟨none, rfl⟩
  | succ k ih =>
    have hi : i < pool.length := by omega
    unfold scan_avail
    simp only [List.getElem?_eq_getElem hi]
    split
    · exact ⟨_, rfl⟩
    · exact ih (i + 1) (by omega)

theorem scan_avail_none (pool : List list_item) (k i : Nat)
    (h : scan_avail pool i k = some none) :
    ∀ j it, i ≤ j → j < i + k → pool[j]? = some it → it.ref ≠ 0 := by
  induction k generalizing i with
  | zero => intro j it h1 h2; omega
  | succ k ih =>
    unfold scan_avail at h
    split at h
    · simp at h
    · next it0 hit0 =>
      split at h
      · simp at h
      · next hne =>
        intro j it h1 h2 hj
        by_cases hij : j = i
        · subst hij
          rw [hit0] at hj
          cases hj
          exact hne
        · exact ih (i + 1) h j it (by omega) (by omega) hj

theorem scan_avail_min (pool : List list_item) (k i j : Nat)
    (h : scan_avail pool i k = some (some j)) :
    ∀ t it, i ≤ t → t < j → pool[t]? = some it → it.ref ≠ 0 := by
  induction k generalizing i with
  | zero => simp [scan_avail] at h
  | succ k ih =>
    unfold scan_avail at h
    split at h
    · simp at h
    · next it0 hit0 =>
      split at h
      · simp only [Option.some.injEq] at h
        subst h
        intro t it h1 h2
        omega
      · next hne =>
        intro t it h1 h2 ht
        by_cases hti : t = i
        · subst hti
          rw [hit0] at ht
          cases ht
          exact hne
        · exact ih (i + 1) h t it (by omega) h2 ht

theorem find_avail_eq_scan (l : list_list)
    (hvalid : l.type = LIST_BYTE ∨ l.type = LIST_MSG ∨ l.type = LIST_BUF) :
    list_find_avail l = scan_avail l.itempool 0 l.poolsize := by
  unfold list_find_avail
  rcases hvalid with h | h | h <;> simp [h, LIST_BYTE, LIST_MSG, LIST_BUF]

theorem find_avail_unknown (l : list_list) (h1 : l.type ≠ LIST_BYTE) (h2 : l.type ≠ LIST_MSG)
    (h3 : l.type ≠ LIST_BUF) : list_find_avail l = some none := by
  unfold list_find_avail
  simp only [if_neg h1, if_neg h2, if_neg h3]

/-- C16. On a list of a valid variant whose array holds its `poolsize`
slots, `list_find_avail` returns a result; it returns slot `j` exactly when
`j` is the smallest index below `poolsize` whose slot has `ref == 0`, and
`NULL` exactly when every one of the `poolsize` slots has `ref != 0`.  The
function only reads: its embedding has no list to return. -/
theorem find_avail_first_free (l : list_list)
    (hvalid : l.type = LIST_BYTE ∨ l.type = LIST_MSG ∨ l.type = LIST_BUF)
    (hsize : l.poolsize ≤ l.itempool.length) :
    (∃ r, list_find_avail l = some r) ∧
    (∀ j, list_find_avail l = some (some j) ↔
      (j < l.poolsize ∧ (∃ it, l.itempool[j]? = some it ∧ it.ref = 0) ∧
        ∀ i it, i < j → l.itempool[i]? = some it → it.ref ≠ 0)) ∧
    (list_find_avail l = some none ↔
      ∀ i it, i < l.poolsize → l.itempool[i]? = some it → it.ref ≠ 0) := by
  rw [find_avail_eq_scan l hvalid]
  refine ⟨scan_avail_defined _ _ 0 (by omega), ?_, ?_⟩
  · intro j
    constructor
    · intro h
      have h1 := scan_avail_some _ _ _ _ h
      have h2 := scan_avail_min _ _ _ _ h
      exact ⟨by omega, h1.2.2, fun i it hi hit => h2 i it (Nat.zero_le i) hi hit⟩
    · rintro ⟨hj, hfree, hused⟩
      refine scan_avail_first _ _ 0 j (Nat.zero_le j) (by omega) ?_ hfree
      intro t _ ht
      have hlt : t < l.itempool.length := by omega
      exact ⟨_, List.getElem?_eq_getElem hlt, hused t _ ht (List.getElem?_eq_getElem hlt)⟩
  · constructor
    · intro h i it hi hit
      exact scan_avail_none _ _ _ h i it (Nat.zero_le i) (by omega) hit
    · intro h
      exact scan_avail_full _ _ 0 (fun j it _ h2 h3 => h j it (by omega) h3) (by omega)

/-- Witness of C16: on the list of `list_test` after two removals, slots 0 to
2 are in use and slot 3 is the first free one. -/
theorem find_avail_first_free_witness :
    list_find_avail
      { test_prepended with
        itempool := [byte_item none 0, byte_item (some 0) 1, byte_item (some 1) 2,
          zero_item (.byte 3), zero_item (.byte 4)] } = some (some 3) ∧
    list_find_avail test_prepended = some none ∧
    (∃ r, list_find_avail test_prepended = some r) :=
  ⟨by decide, by decide,
   (find_avail_first_free test_prepended (Or.inl rfl) (by decide)).1⟩

/-! ### C11: the `ref` of a newly linked slot -/

theorem fill_item_ref_one (type : Nat) (p p1 : list_item) (d : payload) (parm nx : Option Nat)
    (ht : type = LIST_BYTE ∨ type = LIST_BUF) (href : p.ref = 0)
    (h : fill_item type p d parm nx = some (.ok p1)) : p1.ref = 1 ∧ p1.next = nx := by
  unfold fill_item at h
  rcases ht with ht | ht
  · subst ht
    simp only [if_true] at h
    split at h
    · simp only [Option.some.injEq, Except.ok.injEq] at h
      subst h
      simp [href, UINT_RANGE]
    · simp at h
  · subst ht
    simp only [LIST_BUF, LIST_BYTE, LIST_MSG] at h
    simp only [show ¬ (3 = 1) by decide, show ¬ (3 = 2) by decide, if_false, if_true] at h
    repeat' split at h
    all_goals first
      | (simp at h; done)
      | (simp only [Option.some.injEq, Except.ok.injEq] at h
         subst h
         simp [href, UINT_RANGE])

theorem fill_item_msg (p p1 : list_item) (d : payload) (parm nx : Option Nat)
    (h : fill_item LIST_MSG p d parm nx = some (.ok p1)) :
    ∃ nx0 r m, d = .msg nx0 r m ∧
      p1 = { next := nx, ref := (r + 1) % UINT_RANGE, fields := .msg m } := by
  unfold fill_item at h
  simp only [LIST_MSG, LIST_BYTE, show ¬ (2 = 1) by decide, if_false, if_true] at h
  split at h
  · next nx0 r m =>
    simp only [Option.some.injEq, Except.ok.injEq] at h
    exact ⟨nx0, r, m, rfl, h.symm⟩
  · simp at h

/-- C11, the code on a message list. On the message list of two slots right
after `list_init`, `list_append` of a message whose own header has `ref = 1`
(as `list_get_last` leaves it in `out`) and `list_prepend` of one whose header
has `ref = 5` both return 0; the slots they link have `ref` 2 and 6, the
`ref` copied with the message plus one.  A header `ref` of `2^32 - 1` leaves
the linked slot at `ref == 0`. -/
theorem msg_slot_ref_follows_payload :
    list_init raw_list LIST_MSG (raw_items 2) 2 = some msg_list_2 ∧
    run_calls msg_list_2 [.append (some (.msg none 1 zero_msg)) none,
        .prepend (some (.msg none 5 zero_msg)) none]
      = some ([0, 0], { msg_list_2 with
          head := some 1, n := 2,
          itempool := [{ next := none, ref := 2, fields := .msg zero_msg },
                       { next := some 0, ref := 6, fields := .msg zero_msg }] }) ∧
    list_append msg_list_2 (some (.msg none 4294967295 zero_msg)) none
      = some (0, { msg_list_2 with
          head := some 0, n := 1,
          itempool := [{ next := none, ref := 0, fields := .msg zero_msg },
                       zero_item (.msg zero_msg)] }) := by
  decide

/-! ### C12: a list of unknown variant tag -/

/-- On a list whose tag is none of the three variants, `list_find_avail`
returns `NULL`, so `list_append` and `list_prepend` return -2 before they look
at the tag. -/
theorem unknown_variant_exhausted (l : list_list) (d : payload) (parm : Option Nat)
    (h1 : l.type ≠ LIST_BYTE) (h2 : l.type ≠ LIST_MSG) (h3 : l.type ≠ LIST_BUF) :
    list_append l (some d) parm = some (-2, l) ∧
    list_prepend l (some d) parm = some (-2, l) := by
  have hf := find_avail_unknown l h1 h2 h3
  have ha : ∀ q, list_append l (some d) q = some (-2, l) := by
    intro q
    simp only [list_append, hf]
  refine ⟨ha parm, ?_⟩
  unfold list_prepend
  cases hh : l.head with
  | none => simpa using ha none
  | some oldhead => simp only [hf]

/-- C12, the code on a list of unknown tag. On the list of tag `LIST_UNDEF`
with one free slot, and on one with a node in its slot, `list_append` and
`list_prepend` return -2, not -3, and change nothing. -/
theorem unknown_variant_returns_minus_2 :
    list_init raw_list LIST_UNDEF [zero_item (.byte 0)] 1 = some undef_list_1 ∧
    list_append undef_list_1 (some (.byte 7)) none = some (-2, undef_list_1) ∧
    list_prepend undef_list_1 (some (.byte 7)) none = some (-2, undef_list_1) ∧
    list_append undef_list_1_used (some (.byte 7)) none = some (-2, undef_list_1_used) ∧
    list_prepend undef_list_1_used (some (.byte 7)) none = some (-2, undef_list_1_used) := by
  decide

/-! ### C13: a buffer length above the maximum -/

theorem fill_item_buf_too_large (p : list_item) (d : payload) (buflen : Nat) (nx : Option Nat)
    (hbig : buflen > ITEM_BUF_MAX_SIZE) :
    fill_item LIST_BUF p d (some buflen) nx = some (.error (-5)) := by
  unfold fill_item
  simp only [LIST_BUF, LIST_BYTE, LIST_MSG, show ¬ (3 = 1) by decide, show ¬ (3 = 2) by decide,
    if_false, if_true, if_pos hbig]

/-- C13, as stated, fails on a full pool: on the full one-slot buffer list that
`list_append` of three bytes leaves after `list_init`, `list_append` and
`list_prepend` with the length `ITEM_BUF_MAX_SIZE + 1` return -2, not -5. -/
theorem buffer_too_large_on_full_pool :
    list_init raw_list LIST_BUF (raw_items 1) 1 = some buf_list_1 ∧
    list_append buf_list_1 (some (.buf [1, 2, 3])) (some 3) = some (0, buf_list_1_full) ∧
    ITEM_BUF_MAX_SIZE + 1 > ITEM_BUF_MAX_SIZE ∧
    list_append buf_list_1_full (some (.buf [9])) (some (ITEM_BUF_MAX_SIZE + 1))
      = some (-2, buf_list_1_full) ∧
    list_prepend buf_list_1_full (some (.buf [9])) (some (ITEM_BUF_MAX_SIZE + 1))
      = some (-2, buf_list_1_full) ∧
    (list_append buf_list_1_full (some (.buf [9])) (some (ITEM_BUF_MAX_SIZE + 1))).map Prod.fst
      ≠ some (-5) := by
  refine ⟨by rfl, by rfl, by decide, by rfl, by rfl, by decide⟩

/-- C13 as amended. On a buffer list whose array holds its `poolsize` slots,
with a payload and a length above `ITEM_BUF_MAX_SIZE`: when a slot is free,
`list_append` returns -5, and so does `list_prepend` on a chain that is not
empty; when no slot is free both return -2.  In each case the list and every
slot of the pool are as before the call. -/
theorem buffer_too_large (l : list_list) (d : payload) (buflen : Nat)
    (ht : l.type = LIST_BUF) (hsize : l.poolsize ≤ l.itempool.length)
    (hbig : buflen > ITEM_BUF_MAX_SIZE) :
    ((∃ i it, i < l.poolsize ∧ l.itempool[i]? = some it ∧ it.ref = 0) →
      list_append l (some d) (some buflen) = some (-5, l) ∧
      (l.head ≠ none → list_prepend l (some d) (some buflen) = some (-5, l))) ∧
    ((∀ i it, i < l.poolsize → l.itempool[i]? = some it → it.ref ≠ 0) →
      list_append l (some d) (some buflen) = some (-2, l) ∧
      list_prepend l (some d) (some buflen) = some (-2, l)) := by
  constructor
  · rintro ⟨i, it, hi, hit, href⟩
    have hscan := find_avail_eq_scan l (Or.inr (Or.inr ht))
    obtain ⟨r, hr⟩ := scan_avail_defined l.itempool l.poolsize 0 (by omega)
    cases r with
    | none =>
      exact absurd href (scan_avail_none _ _ _ hr i it (Nat.zero_le i) (by omega) hit)
    | some j =>
      obtain ⟨_, _, itj, hitj, _⟩ := scan_avail_some _ _ _ _ hr
      rw [← hscan] at hr
      constructor
      · simp only [list_append, hr, hitj, ht, fill_item_buf_too_large _ _ _ _ hbig]
      · intro hhead
        cases hh : l.head with
        | none => exact absurd hh hhead
        | some oldhead =>
          simp only [list_prepend, hh, hr, hitj, ht, fill_item_buf_too_large _ _ _ _ hbig]
  · intro hfull
    exact exhausted_of_full l d (some buflen) hsize
      (fun i it hi hit => Nat.one_le_iff_ne_zero.mpr (hfull i it hi hit))

/-- Witness of C13 as amended: the two-slot buffer list with slot 1 free, and
the full one-slot list. -/
theorem buffer_too_large_witness :
    list_append buf_list_2 (some (.buf [9])) (some (ITEM_BUF_MAX_SIZE + 1))
      = some (-5, buf_list_2) ∧
    list_prepend buf_list_2 (some (.buf [9])) (some (ITEM_BUF_MAX_SIZE + 1))
      = some (-5, buf_list_2) ∧
    list_append buf_list_1_full (some (.buf [9])) (some (ITEM_BUF_MAX_SIZE + 1))
      = some (-2, buf_list_1_full) :=
  ⟨((buffer_too_large buf_list_2 (.buf [9]) (ITEM_BUF_MAX_SIZE + 1) rfl (by decide)
      (by decide)).1 ⟨1, _, by decide, rfl, rfl⟩).1,
   ((buffer_too_large buf_list_2 (.buf [9]) (ITEM_BUF_MAX_SIZE + 1) rfl (by decide)
      (by decide)).1 ⟨1, _, by decide, rfl, rfl⟩).2 (by decide),
   by rfl⟩

/-! ### C17: `list_reset` -/

theorem memset_zero_again (pool : List list_item) (f : item_fields) (c : Nat) :
    memset_zero (List.replicate c (zero_item f) ++ pool.drop c) f c
      = some (List.replicate c (zero_item f) ++ pool.drop c) := by
  unfold memset_zero
  have hlen : c ≤ (List.replicate c (zero_item f) ++ pool.drop c).length := by simp
  rw [if_pos hlen]
  have hd : (List.replicate c (zero_item f) ++ pool.drop c).drop c = pool.drop c :=
    List.drop_left' (List.length_replicate c (zero_item f))
  rw [hd]

theorem reset_valid (l : list_list)
    (hvalid : l.type = LIST_BYTE ∨ l.type = LIST_MSG ∨ l.type = LIST_BUF)
    (hsize : l.poolsize ≤ l.itempool.length) :
    ∃ f, list_reset l = some (zeroed l f) ∧ list_reset (zeroed l f) = some (zeroed l f) := by
  rcases hvalid with h | h | h
  · refine ⟨.byte 0, ?_, ?_⟩
    · simp [list_reset, memset_zero, h, hsize, zeroed]
    · simp only [list_reset, zeroed, h, if_true, memset_zero_again, Option.map_some']
  · refine ⟨.msg zero_msg, ?_, ?_⟩
    · simp [list_reset, memset_zero, h, hsize, LIST_MSG, LIST_BYTE, zeroed]
    · simp only [list_reset, zeroed, h, LIST_MSG, LIST_BYTE, show ¬ (2 = 1) by decide, if_false,
        if_true, memset_zero_again, Option.map_some']
  · refine ⟨.buf (List.replicate ITEM_BUF_MAX_SIZE 0) 0, ?_, ?_⟩
    · simp [list_reset, memset_zero, h, hsize, LIST_MSG, LIST_BYTE, LIST_BUF, zeroed]
    · simp only [list_reset, zeroed, h, LIST_MSG, LIST_BYTE, LIST_BUF, show ¬ (3 = 1) by decide,
        show ¬ (3 = 2) by decide, if_false, if_true, memset_zero_again, Option.map_some']

theorem reset_unknown (l : list_list) (h1 : l.type ≠ LIST_BYTE) (h2 : l.type ≠ LIST_MSG)
    (h3 : l.type ≠ LIST_BUF) : list_reset l = some { l with head := none, n := 0 } := by
  simp only [list_reset, if_neg h1, if_neg h2, if_neg h3]

/-- C17, as stated, fails for an unknown variant tag: on the list of tag
`LIST_UNDEF` with a node in its one slot, `list_reset` clears `head` and the
count but leaves the slot with `ref == 1`. -/
theorem reset_unknown_tag_keeps_pool :
    list_reset undef_list_1_used
      = some { undef_list_1_used with head := none, n := 0 } ∧
    ({ undef_list_1_used with head := none, n := 0 } : list_list).itempool[0]?
      = some { next := none, ref := 1, fields := .byte 7 } ∧
    ¬ (∀ l1, list_reset undef_list_1_used = some l1 →
        ∀ i, i < undef_list_1_used.poolsize →
          ∃ it, l1.itempool[i]? = some it ∧ it.ref = 0 ∧ it.next = none) := by
  refine ⟨by decide, by decide, ?_⟩
  intro h
  obtain ⟨it, hit, href, _⟩ :=
    h { undef_list_1_used with head := none, n := 0 } (by decide) 0 (by decide)
  have h0 : ({ undef_list_1_used with head := none, n := 0 } : list_list).itempool[0]?
      = some { next := none, ref := 1, fields := .byte 7 } := by decide
  rw [h0] at hit
  cases hit
  exact absurd href (by decide)

/-- C17 as amended. On a list whose array holds its `poolsize` slots,
`list_reset` returns; the count is 0 and `head` is `NULL`; the variant tag,
the capacity, the size of the array and the items beyond `poolsize` are as
before; a second `list_reset` changes nothing more.  When the tag is byte,
message or buffer every one of the `poolsize` slots is free (`ref == 0`,
`next` `NULL`); for any other tag the pool is left as it was. -/
theorem reset_contract (l : list_list) (hsize : l.poolsize ≤ l.itempool.length) :
    ∃ l1, list_reset l = some l1 ∧ l1.n = 0 ∧ l1.head = none ∧
      l1.type = l.type ∧ l1.poolsize = l.poolsize ∧
      l1.itempool.length = l.itempool.length ∧
      (∀ i, l.poolsize ≤ i → l1.itempool[i]? = l.itempool[i]?) ∧
      list_reset l1 = some l1 ∧
      ((l.type = LIST_BYTE ∨ l.type = LIST_MSG ∨ l.type = LIST_BUF) →
        ∀ i, i < l.poolsize → ∃ it, l1.itempool[i]? = some it ∧ it.ref = 0 ∧ it.next = none) ∧
      ((l.type ≠ LIST_BYTE ∧ l.type ≠ LIST_MSG ∧ l.type ≠ LIST_BUF) →
        l1.itempool = l.itempool) := by
  by_cases hvalid : l.type = LIST_BYTE ∨ l.type = LIST_MSG ∨ l.type = LIST_BUF
  · obtain ⟨f, h1, h2⟩ := reset_valid l hvalid hsize
    refine ⟨_, h1, rfl, rfl, rfl, rfl, ?_, ?_, h2, ?_, ?_⟩
    · show (List.replicate l.poolsize (zero_item f) ++ l.itempool.drop l.poolsize).length = _
      simp only [List.length_append, List.length_replicate, List.length_drop]
      omega
    · intro i hi
      show (List.replicate l.poolsize (zero_item f) ++ l.itempool.drop l.poolsize)[i]? = _
      rw [List.getElem?_append_right (by simpa using hi), List.getElem?_drop]
      simp only [List.length_replicate]
      congr 1
      omega
    · intro _ i hi
      refine ⟨zero_item f, ?_, rfl, rfl⟩
      show (List.replicate l.poolsize (zero_item f) ++ l.itempool.drop l.poolsize)[i]? = _
      rw [List.getElem?_append_left (by simpa using hi)]
      exact List.getElem?_replicate_of_lt hi
    · rintro ⟨h1, h2, h3⟩
      rcases hvalid with h | h | h
      · exact absurd h h1
      · exact absurd h h2
      · exact absurd h h3
  · have h1 : l.type ≠ LIST_BYTE := fun h => hvalid (Or.inl h)
    have h2 : l.type ≠ LIST_MSG := fun h => hvalid (Or.inr (Or.inl h))
    have h3 : l.type ≠ LIST_BUF := fun h => hvalid (Or.inr (Or.inr h))
    refine ⟨_, reset_unknown l h1 h2 h3, rfl, rfl, rfl, rfl, rfl, fun i _ => rfl, ?_,
      fun h => absurd h hvalid, fun _ => rfl⟩
    exact reset_unknown _ h1 h2 h3

/-- Witness of C17 as amended: `list_reset` on the full byte list of
`list_test`. -/
theorem reset_contract_witness :
    ∃ l1, list_reset test_appended = some l1 ∧ l1.n = 0 ∧ l1.head = none ∧
      l1.type = test_appended.type ∧ l1.poolsize = test_appended.poolsize ∧
      l1.itempool.length = test_appended.itempool.length ∧
      (∀ i, test_appended.poolsize ≤ i → l1.itempool[i]? = test_appended.itempool[i]?) ∧
      list_reset l1 = some l1 ∧
      ((test_appended.type = LIST_BYTE ∨ test_appended.type = LIST_MSG ∨
          test_appended.type = LIST_BUF) →
        ∀ i, i < test_appended.poolsize →
          ∃ it, l1.itempool[i]? = some it ∧ it.ref = 0 ∧ it.next = none) ∧
      ((test_appended.type ≠ LIST_BYTE ∧ test_appended.type ≠ LIST_MSG ∧
          test_appended.type ≠ LIST_BUF) →
        l1.itempool = test_appended.itempool) :=
  reset_contract test_appended (by decide)

/-! ### C19: a chain linked to itself -/

theorem node_at_self_link (pool : List list_item) (p : Nat) (it : list_item)
    (hit : pool[p]? = some it) (hn : it.next = some p) (k : Nat) :
    node_at pool p k = some p := by
  induction k with
  | zero => rfl
  | succ k ih =>
    rw [node_at]
    simp only [hit, hn]
    exact ih

theorem walk_last_self_link (pool : List list_item) (p : Nat) (it : list_item)
    (hit : pool[p]? = some it) (hn : it.next = some p) (fuel : Nat) :
    walk_last pool fuel p = none := by
  induction fuel with
  | zero => rfl
  | succ fuel ih =>
    rw [walk_last]
    simp only [hit, hn]
    exact ih

theorem walk_chain_self_link (pool : List list_item) (p : Nat) (it : list_item)
    (hit : pool[p]? = some it) (hn : it.next = some p) (fuel : Nat) :
    walk_chain pool fuel (some p) = none := by
  induction fuel with
  | zero => rfl
  | succ fuel ih =>
    rw [walk_chain]
    simp only [hit, hn, ih, Option.map_none']

theorem zero_ne_int_max : ¬ ((0 : Int) = INT_MAX) := by
  unfold INT_MAX
  norm_num

theorem one_ne_int_min : ¬ ((1 : Int) = INT_MIN) := by
  unfold INT_MIN
  norm_num

theorem uint_dec_one : (1 + UINT_RANGE - 1) % UINT_RANGE = 0 := by
  unfold UINT_RANGE
  norm_num

theorem append_first_slot (rest : List list_item) (c1 a : Nat) :
    list_append
        { head := none, n := 0, type := LIST_BYTE, poolsize := c1 + 1,
          itempool := zero_item (.byte 0) :: rest } (some (.byte a)) none
      = some (0,
        { head := some 0, n := 1, type := LIST_BYTE, poolsize := c1 + 1,
          itempool := { next := none, ref := 1, fields := .byte a } :: rest }) := by
  simp [list_append, list_find_avail, scan_avail, fill_item, zero_item, UINT_RANGE,
    zero_ne_int_max]

theorem remove_last_first_slot (rest : List list_item) (c1 a : Nat) :
    list_remove_last
        { head := some 0, n := 1, type := LIST_BYTE, poolsize := c1 + 1,
          itempool := { next := none, ref := 1, fields := .byte a } :: rest }
      = some (0,
        { head := some 0, n := 0, type := LIST_BYTE, poolsize := c1 + 1,
          itempool := { next := none, ref := 0, fields := .byte a } :: rest }) := by
  simp [list_remove_last, walk_last_prev, uint_dec_one, one_ne_int_min]

theorem append_stale_head (rest : List list_item) (c1 a b : Nat) :
    list_append
        { head := some 0, n := 0, type := LIST_BYTE, poolsize := c1 + 1,
          itempool := { next := none, ref := 0, fields := .byte a } :: rest }
        (some (.byte b)) none
      = some (0,
        { head := some 0, n := 1, type := LIST_BYTE, poolsize := c1 + 1,
          itempool := { next := some 0, ref := 1, fields := .byte b } :: rest }) := by
  simp [list_append, list_find_avail, scan_avail, fill_item, walk_last, store_next, UINT_RANGE,
    zero_ne_int_max]

/-- C19. On a byte list of any capacity `c >= 1` (bound to an array of at
least `c` items), `list_init` followed by `list_append(a)`, `list_remove_last`
and `list_append(b)` has the three calls return 0; in the state reached
`head` is slot 0 and the `next` of slot 0 is slot 0 itself, so every step of
the walk from `head` meets slot 0 again and the walk reaches `NULL` with no
amount of fuel. -/
theorem self_link_reachable (fifo : list_list) (items : List list_item) (c a b : Nat)
    (hc : 1 ≤ c) (hlen : c ≤ items.length) :
    ∃ l0 l3, list_init fifo LIST_BYTE items c = some l0 ∧
      run_calls l0 [append_byte a, .remove_last, append_byte b] = some ([0, 0, 0], l3) ∧
      l3.head = some 0 ∧
      l3.itempool[0]? = some { next := some 0, ref := 1, fields := .byte b } ∧
      (∀ k, node_at l3.itempool 0 k = some 0) ∧
      (∀ fuel, walk_chain l3.itempool fuel l3.head = none) ∧
      list_chain l3 = none := by
  obtain ⟨c1, rfl⟩ : ∃ c1, c = c1 + 1 := ⟨c - 1, by omega⟩
  have h0 : list_init fifo LIST_BYTE items (c1 + 1)
      = some { head := none, n := 0, type := LIST_BYTE, poolsize := c1 + 1,
               itempool := zero_item (.byte 0) ::
                 (List.replicate c1 (zero_item (.byte 0)) ++ items.drop (c1 + 1)) } := by
    simp [list_init, list_reset, memset_zero, hlen, List.replicate_succ]
  have hget : ({ next := some 0, ref := 1, fields := .byte b } ::
      (List.replicate c1 (zero_item (.byte 0)) ++ items.drop (c1 + 1)))[0]?
      = some { next := some 0, ref := 1, fields := .byte b } := by simp
  refine ⟨_, ⟨some 0, 1, LIST_BYTE, ⟨some 0, 1, .byte b⟩ ::
    (List.replicate c1 (zero_item (.byte 0)) ++ items.drop (c1 + 1)), c1 + 1⟩,
    h0, ?_, rfl, hget, ?_, ?_, ?_⟩
  · simp only [run_calls, do_call, append_byte, append_first_slot, remove_last_first_slot,
      append_stale_head, Option.map_some']
  · exact node_at_self_link _ 0 _ hget rfl
  · exact walk_chain_self_link _ 0 _ hget rfl
  · exact walk_chain_self_link _ 0 _ hget rfl _

/-- Witness of C19: capacity 1, bytes 7 and 8, on a structure and an array
holding arbitrary values before `list_init`. -/
theorem self_link_reachable_witness :
    ∃ l0 l3, list_init raw_list LIST_BYTE (raw_items 1) 1 = some l0 ∧
      run_calls l0 [append_byte 7, .remove_last, append_byte 8] = some ([0, 0, 0], l3) ∧
      l3.head = some 0 ∧
      l3.itempool[0]? = some { next := some 0, ref := 1, fields := .byte 8 } ∧
      (∀ k, node_at l3.itempool 0 k = some 0) ∧
      (∀ fuel, walk_chain l3.itempool fuel l3.head = none) ∧
      list_chain l3 = none :=
  self_link_reachable raw_list (raw_items 1) 1 7 8 (by decide) (by decide)

/-! ### Chains as lists of slots -/

theorem walk_chain_seg (pool : List list_item) (fuel : Nat) (s : Option Nat)
    (c : List (Nat × list_item)) (h : walk_chain pool fuel s = some c) :
    is_seg pool s c none ∧ c.length ≤ fuel := by
  induction fuel generalizing s c with
  | zero =>
    cases s with
    | none =>
      have : c = [] := by simpa [walk_chain] using h.symm
      subst this
      exact ⟨rfl, Nat.le_refl 0⟩
    | some p => simp [walk_chain] at h
  | succ fuel ih =>
    cases s with
    | none =>
      have : c = [] := by simpa [walk_chain] using h.symm
      subst this
      exact ⟨rfl, Nat.zero_le _⟩
    | some p =>
      unfold walk_chain at h
      cases hp : pool[p]? with
      | none => simp [hp] at h
      | some it =>
        simp only [hp, Option.map_eq_some'] at h
        obtain ⟨rest, hrest, hc⟩ := h
        subst hc
        obtain ⟨h1, h2⟩ := ih it.next rest hrest
        exact ⟨⟨rfl, hp, h1⟩, by simp only [List.length_cons]; omega⟩

theorem seg_walk_chain (pool : List list_item) (fuel : Nat) (s : Option Nat)
    (c : List (Nat × list_item)) (h : is_seg pool s c none) (hf : c.length ≤ fuel) :
    walk_chain pool fuel s = some c := by
  induction c generalizing s fuel with
  | nil =>
    have : s = none := h
    subst this
    cases fuel <;> simp [walk_chain]
  | cons x rest ih =>
    obtain ⟨h1, h2, h3⟩ := h
    subst h1
    cases fuel with
    | zero => simp at hf
    | succ fuel =>
      unfold walk_chain
      simp only [h2, ih fuel x.2.next h3 (by simpa using hf), Option.map_some']

theorem is_seg_unique (pool : List list_item) (s : Option Nat) (c c1 : List (Nat × list_item))
    (h : is_seg pool s c none) (h1 : is_seg pool s c1 none) : c = c1 := by
  induction c generalizing s c1 with
  | nil =>
    have hs : s = none := h
    subst hs
    cases c1 with
    | nil => rfl
    | cons y rest1 => exact absurd h1.1 (by simp)
  | cons x rest ih =>
    obtain ⟨hx1, hx2, hx3⟩ := h
    subst hx1
    cases c1 with
    | nil => exact absurd h1 (by simp [is_seg])
    | cons y rest1 =>
      obtain ⟨hy1, hy2, hy3⟩ := h1
      have e1 : x.1 = y.1 := Option.some.inj hy1
      rw [← e1, hx2] at hy2
      have e2 : x.2 = y.2 := Option.some.inj hy2
      have e : x = y := Prod.ext e1 e2
      subst e
      rw [ih x.2.next rest1 hx3 hy3]

theorem is_seg_append (pool : List list_item) (s e : Option Nat)
    (a b : List (Nat × list_item)) :
    is_seg pool s (a ++ b) e ↔ ∃ m, is_seg pool s a m ∧ is_seg pool m b e := by
  induction a generalizing s with
  | nil =>
    constructor
    · intro h
      exact ⟨s, rfl, h⟩
    · rintro ⟨m, h1, h2⟩
      have : s = m := h1
      subst this
      exact h2
  | cons x rest ih =>
    constructor
    · rintro ⟨h1, h2, h3⟩
      obtain ⟨m, h4, h5⟩ := (ih x.2.next).mp h3
      exact ⟨m, ⟨h1, h2, h4⟩, h5⟩
    · rintro ⟨m, ⟨h1, h2, h4⟩, h5⟩
      exact ⟨h1, h2, (ih x.2.next).mpr ⟨m, h4, h5⟩⟩

theorem is_seg_frame (pool pool1 : List list_item) (s e : Option Nat)
    (c : List (Nat × list_item)) (h : is_seg pool s c e)
    (hsame : ∀ x, x ∈ c → pool1[x.1]? = pool[x.1]?) : is_seg pool1 s c e := by
  induction c generalizing s with
  | nil => exact h
  | cons x rest ih =>
    obtain ⟨h1, h2, h3⟩ := h
    refine ⟨h1, ?_, ih x.2.next h3 (fun y hy => hsame y (List.mem_cons_of_mem x hy))⟩
    rw [hsame x (List.mem_cons_self x rest)]
    exact h2

theorem is_seg_mem_get (pool : List list_item) (s e : Option Nat)
    (c : List (Nat × list_item)) (h : is_seg pool s c e) (x : Nat × list_item)
    (hx : x ∈ c) : pool[x.1]? = some x.2 := by
  induction c generalizing s with
  | nil => simp at hx
  | cons y rest ih =>
    obtain ⟨_, h2, h3⟩ := h
    rcases List.mem_cons.mp hx with hxy | hxr
    · rw [hxy]; exact h2
    · exact ih y.2.next h3 hxr

theorem chain_length_le (pool : List list_item) (s : Option Nat)
    (c : List (Nat × list_item)) (h : is_seg pool s c none) : c.length ≤ pool.length := by
  have h1 := seg_walk_chain pool c.length s c h (Nat.le_refl _)
  have h2 := walk_chain_fuel_enough pool c.length s c h1
  exact (walk_chain_seg pool pool.length s c h2).2

theorem list_chain_iff (l : list_list) (c : List (Nat × list_item)) :
    list_chain l = some c ↔ is_seg l.itempool l.head c none := by
  unfold list_chain
  constructor
  · intro h
    exact (walk_chain_seg _ _ _ _ h).1
  · intro h
    exact seg_walk_chain _ _ _ _ h (chain_length_le _ _ _ h)

/-- A chain that ends meets no slot twice. -/
theorem chain_nodup (pool : List list_item) (s : Option Nat) (c : List (Nat × list_item))
    (h : is_seg pool s c none) : (c.map Prod.fst).Nodup := by
  induction c generalizing s with
  | nil => simp
  | cons x rest ih =>
    obtain ⟨h1, h2, h3⟩ := h
    rw [List.map_cons, List.nodup_cons]
    refine ⟨?_, ih x.2.next h3⟩
    intro hmem
    obtain ⟨y, hy, hyx⟩ := List.mem_map.mp hmem
    obtain ⟨a, b, hab⟩ := List.append_of_mem hy
    rw [hab] at h3
    obtain ⟨m, _, hm2⟩ := (is_seg_append pool x.2.next none a (y :: b)).mp h3
    have hs : m = some x.1 := by rw [hm2.1, hyx]
    rw [hs] at hm2
    have hfull : is_seg pool (some x.1) (x :: rest) none := ⟨rfl, h2, by rw [hab]; exact h3⟩
    have := is_seg_unique pool (some x.1) (y :: b) (x :: rest) hm2 hfull
    have hl := congrArg List.length this
    rw [hab] at hl
    simp at hl
    omega

theorem is_seg_start (pool : List list_item) (s e : Option Nat) (x : Nat × list_item)
    (rest : List (Nat × list_item)) (h : is_seg pool s (x :: rest) e) : s = some x.1 :=
  h.1

theorem chain_nil_iff (pool : List list_item) (s : Option Nat) (c : List (Nat × list_item))
    (h : is_seg pool s c none) : c = [] ↔ s = none := by
  cases c with
  | nil => exact ⟨fun _ => h, fun _ => rfl⟩
  | cons x rest =>
    constructor
    · intro hc
      simp at hc
    · intro hs
      rw [h.1] at hs
      simp at hs

theorem walk_last_chain (pool : List list_item) (a : List (Nat × list_item))
    (x : Nat × list_item) (fuel h : Nat) (hseg : is_seg pool (some h) (a ++ [x]) none)
    (hf : a.length + 1 ≤ fuel) : walk_last pool fuel h = some x.1 := by
  induction a generalizing h fuel with
  | nil =>
    obtain ⟨h1, h2, h3⟩ := hseg
    have hn : x.2.next = none := h3
    have hh : h = x.1 := Option.some.inj h1
    subst hh
    cases fuel with
    | zero => omega
    | succ fuel =>
      unfold walk_last
      simp only [h2, hn]
  | cons y rest ih =>
    obtain ⟨h1, h2, h3⟩ := hseg
    have hh : h = y.1 := Option.some.inj h1
    subst hh
    cases hq : y.2.next with
    | none =>
      rw [hq] at h3
      cases rest with
      | nil => exact absurd h3.1 (by simp)
      | cons z r => exact absurd h3.1 (by simp)
    | some q =>
      rw [hq] at h3
      cases fuel with
      | zero => omega
      | succ fuel =>
        unfold walk_last
        simp only [h2, hq]
        exact ih fuel q h3 (by simp only [List.length_cons] at hf; omega)

theorem walk_last_prev_single (pool : List list_item) (x : Nat × list_item) (fuel h : Nat)
    (prev : Option Nat) (hseg : is_seg pool (some h) [x] none) (hf : 1 ≤ fuel) :
    walk_last_prev pool fuel prev h = some (prev, x.1) := by
  obtain ⟨h1, h2, h3⟩ := hseg
  have hn : x.2.next = none := h3
  have hh : h = x.1 := Option.some.inj h1
  subst hh
  cases fuel with
  | zero => omega
  | succ fuel =>
    unfold walk_last_prev
    simp only [h2, hn]

theorem walk_last_prev_chain (pool : List list_item) (a : List (Nat × list_item))
    (y x : Nat × list_item) (fuel h : Nat) (prev : Option Nat)
    (hseg : is_seg pool (some h) (a ++ [y, x]) none) (hf : a.length + 2 ≤ fuel) :
    walk_last_prev pool fuel prev h = some (some y.1, x.1) := by
  induction a generalizing h fuel prev with
  | nil =>
    obtain ⟨h1, h2, h3⟩ := hseg
    have hh : h = y.1 := Option.some.inj h1
    subst hh
    have hq : y.2.next = some x.1 := h3.1
    rw [hq] at h3
    cases fuel with
    | zero => omega
    | succ fuel =>
      unfold walk_last_prev
      simp only [h2, hq]
      exact walk_last_prev_single pool x fuel x.1 (some y.1) h3 (by simp at hf; omega)
  | cons z rest ih =>
    obtain ⟨h1, h2, h3⟩ := hseg
    have hh : h = z.1 := Option.some.inj h1
    subst hh
    cases hq : z.2.next with
    | none =>
      rw [hq] at h3
      cases rest with
      | nil => exact absurd h3.1 (by simp)
      | cons w r => exact absurd h3.1 (by simp)
    | some q =>
      rw [hq] at h3
      cases fuel with
      | zero => omega
      | succ fuel =>
        unfold walk_last_prev
        simp only [h2, hq]
        exact ih fuel q (some z.1) h3 (by simp only [List.length_cons] at hf; omega)

theorem exists_snoc (c : List (Nat × list_item)) (h : c ≠ []) : ∃ a x, c = a ++ [x] := by
  rcases List.eq_nil_or_concat c with h0 | ⟨a, x, hax⟩
  · exact absurd h0 h
  · exact ⟨a, x, by rw [hax, List.concat_eq_append]⟩

theorem exists_snoc2 (c : List (Nat × list_item)) (h : 2 ≤ c.length) :
    ∃ a y x, c = a ++ [y, x] := by
  obtain ⟨b, x, hb⟩ := exists_snoc c (by intro h0; rw [h0] at h; simp at h)
  subst hb
  obtain ⟨a, y, ha⟩ := exists_snoc b
    (by intro h0; rw [h0] at h; simp at h)
  subst ha
  exact ⟨a, y, x, by simp⟩

theorem nodup_snoc2 (a : List (Nat × list_item)) (y x : Nat × list_item)
    (h : ((a ++ [y, x]).map Prod.fst).Nodup) :
    (∀ z, z ∈ a → z.1 ≠ y.1 ∧ z.1 ≠ x.1) ∧ y.1 ≠ x.1 := by
  rw [List.map_append, List.nodup_append] at h
  obtain ⟨_, h2, h3⟩ := h
  constructor
  · intro z hz
    have hz1 : z.1 ∈ a.map Prod.fst := List.mem_map.mpr ⟨z, hz, rfl⟩
    constructor
    · intro e
      exact h3 hz1 (by simp [e])
    · intro e
      exact h3 hz1 (by simp [e])
  · intro e
    simp [e] at h2

/-! ### C14: `list_remove_first` -/

theorem remove_first_returns (l : list_list) (h : Nat) (it : list_item)
    (hh : l.head = some h) (hit : l.itempool[h]? = some it) (hn : l.n ≠ INT_MIN) :
    ∃ l1, list_remove_first l = some (0, l1) ∧ l1.head = it.next ∧ l1.n = l.n - 1 ∧
      l1.type = l.type ∧ l1.poolsize = l.poolsize ∧
      l1.itempool = l.itempool.set h { it with next := none, ref := 0 } := by
  unfold list_remove_first
  simp only [hh, hit, if_neg hn]
  exact ⟨_, rfl, rfl, rfl, rfl, rfl, rfl⟩

theorem remove_first_chain (l l1 : list_list) (x : Nat × list_item)
    (rest : List (Nat × list_item)) (hseg : is_seg l.itempool l.head (x :: rest) none)
    (hhead : l1.head = x.2.next)
    (hpool : l1.itempool = l.itempool.set x.1 { x.2 with next := none, ref := 0 }) :
    is_seg l1.itempool l1.head rest none := by
  have hnd := chain_nodup _ _ _ hseg
  rw [List.map_cons, List.nodup_cons] at hnd
  obtain ⟨_, _, h3⟩ := hseg
  rw [hhead, hpool]
  refine is_seg_frame l.itempool _ _ _ rest h3 ?_
  intro y hy
  have hne : x.1 ≠ y.1 := by
    intro e
    exact hnd.1 (List.mem_map.mpr ⟨y, hy, e.symm⟩)
  exact List.getElem?_set_ne hne

/-- C14. `list_remove_first` returns -2 exactly when `head` is `NULL`.  When
`head` points at slot `h` of the pool holding `it` (and the count is not the
least `int`), it returns 0; the new `head` is `it.next`; slot `h` is `it` with
`next` `NULL` and `ref` 0; every other slot is as before; the count is one
less; and when the walk from the old `head` ends, so that the chain is a list
of slots, the new chain is that list without its first element. -/
theorem remove_first_contract (l : list_list) :
    ((∃ l1, list_remove_first l = some (-2, l1)) ↔ l.head = none) ∧
    (l.head = none → list_remove_first l = some (-2, l)) ∧
    (∀ h it, l.head = some h → l.itempool[h]? = some it → l.n ≠ INT_MIN →
      ∃ l1, list_remove_first l = some (0, l1) ∧ l1.head = it.next ∧ l1.n = l.n - 1 ∧
        l1.type = l.type ∧ l1.poolsize = l.poolsize ∧
        l1.itempool[h]? = some { it with next := none, ref := 0 } ∧
        (∀ i, i ≠ h → l1.itempool[i]? = l.itempool[i]?) ∧
        (∀ c, list_chain l = some c → list_chain l1 = some c.tail)) := by
  refine ⟨?_, ?_, ?_⟩
  · constructor
    · rintro ⟨l1, h1⟩
      unfold list_remove_first at h1
      repeat' split at h1
      all_goals first
        | assumption
        | simp at h1
    · intro hh
      exact ⟨l, by simp only [list_remove_first, hh]⟩
  · intro hh
    simp only [list_remove_first, hh]
  · intro h it hh hit hn
    obtain ⟨l1, hr, hhead, hn1, ht1, hp1, hpool⟩ := remove_first_returns l h it hh hit hn
    have hlen : h < l.itempool.length := (List.getElem?_eq_some.mp hit).1
    refine ⟨l1, hr, hhead, hn1, ht1, hp1, ?_, ?_, ?_⟩
    · rw [hpool]
      exact List.getElem?_set_self hlen
    · intro i hi
      rw [hpool]
      exact List.getElem?_set_ne (fun e => hi e.symm)
    · intro c hc
      have hseg := (list_chain_iff l c).mp hc
      cases c with
      | nil =>
        have := (chain_nil_iff _ _ _ hseg).mp rfl
        rw [hh] at this
        simp at this
      | cons x rest =>
        have hx1 : x.1 = h := by
          have := hseg.1
          rw [hh] at this
          exact (Option.some.inj this).symm
        have hx2 : x.2 = it := by
          have := hseg.2.1
          rw [hx1, hit] at this
          exact (Option.some.inj this).symm
        apply (list_chain_iff l1 rest).mpr
        exact remove_first_chain l l1 x rest hseg (by rw [hhead, hx2])
          (by rw [hpool, hx1, hx2])

/-- Witness of C14: the first `list_remove_first` of `list_test`, on the
chain 4, 3, 2, 1, 0. -/
theorem remove_first_contract_witness :
    ∃ l1, list_remove_first test_prepended = some (0, l1) ∧
      l1.head = (byte_item (some 3) 4).next ∧ l1.n = test_prepended.n - 1 ∧
      l1.type = test_prepended.type ∧ l1.poolsize = test_prepended.poolsize ∧
      l1.itempool[4]? = some { byte_item (some 3) 4 with next := none, ref := 0 } ∧
      (∀ i, i ≠ 4 → l1.itempool[i]? = test_prepended.itempool[i]?) ∧
      (∀ c, list_chain test_prepended = some c → list_chain l1 = some c.tail) :=
  (remove_first_contract test_prepended).2.2 4 (byte_item (some 3) 4) rfl (by decide)
    (by decide)

/-! ### C15: `list_remove_last` on a chain of two or more nodes -/

theorem count_ne_int_min (n : Int) (k : Nat) (hn : n = k) : n ≠ INT_MIN := by
  unfold INT_MIN
  norm_num
  omega

theorem remove_last_chain (l : list_list) (a : List (Nat × list_item))
    (y x : Nat × list_item) (hseg : is_seg l.itempool l.head (a ++ [y, x]) none)
    (hn : l.n ≠ INT_MIN) :
    ∃ l1, list_remove_last l = some (0, l1) ∧ l1.head = l.head ∧ l1.n = l.n - 1 ∧
      l1.type = l.type ∧ l1.poolsize = l.poolsize ∧
      l1.itempool = store_next (l.itempool.set x.1
        { x.2 with next := none, ref := (x.2.ref + UINT_RANGE - 1) % UINT_RANGE }) y.1 none ∧
      is_seg l1.itempool l1.head (a ++ [(y.1, { y.2 with next := none })]) none ∧
      l1.itempool[x.1]? = some
        { x.2 with next := none, ref := (x.2.ref + UINT_RANGE - 1) % UINT_RANGE } ∧
      l1.itempool[y.1]? = some { y.2 with next := none } ∧
      (∀ i, i ≠ x.1 → i ≠ y.1 → l1.itempool[i]? = l.itempool[i]?) := by
  have hnd := nodup_snoc2 a y x (chain_nodup _ _ _ hseg)
  have hxget : l.itempool[x.1]? = some x.2 := is_seg_mem_get _ _ _ _ hseg x (by simp)
  have hyget : l.itempool[y.1]? = some y.2 := is_seg_mem_get _ _ _ _ hseg y (by simp)
  have hxlen : x.1 < l.itempool.length := (List.getElem?_eq_some.mp hxget).1
  have hlen := chain_length_le _ _ _ hseg
  obtain ⟨hd, hhd⟩ : ∃ hd, l.head = some hd := by
    cases a with
    | nil => exact ⟨y.1, hseg.1⟩
    | cons z r => exact ⟨z.1, hseg.1⟩
  have hw : walk_last_prev l.itempool l.itempool.length none hd = some (some y.1, x.1) := by
    rw [hhd] at hseg
    exact walk_last_prev_chain _ a y x _ hd none hseg
      (by simp only [List.length_append, List.length_cons, List.length_nil] at hlen; omega)
  have hget : ∀ i, (store_next (l.itempool.set x.1
      { x.2 with next := none, ref := (x.2.ref + UINT_RANGE - 1) % UINT_RANGE }) y.1 none)[i]?
      = if i = y.1 then some { y.2 with next := none }
        else if i = x.1 then some
          { x.2 with next := none, ref := (x.2.ref + UINT_RANGE - 1) % UINT_RANGE }
        else l.itempool[i]? := by
    intro i
    rw [getElem?_store_next]
    by_cases h1 : i = y.1
    · rw [if_pos h1, if_pos h1, List.getElem?_set_ne (fun e => hnd.2 e.symm), hyget]
      rfl
    · rw [if_neg h1, if_neg h1]
      by_cases h2 : i = x.1
      · rw [if_pos h2, h2, List.getElem?_set_self hxlen]
      · rw [if_neg h2, List.getElem?_set_ne (fun e => h2 e.symm)]
  refine ⟨⟨l.head, l.n - 1, l.type, store_next (l.itempool.set x.1
      { x.2 with next := none, ref := (x.2.ref + UINT_RANGE - 1) % UINT_RANGE }) y.1 none,
    l.poolsize⟩, ?_, rfl, rfl, rfl, rfl, rfl, ?_, ?_, ?_, ?_⟩
  · unfold list_remove_last
    simp only [hhd, hw, hxget, if_neg hn]
  · show is_seg (store_next _ y.1 none) l.head _ none
    have hsplit : a ++ [y, x] = a ++ ([y] ++ [x]) := by simp
    rw [hsplit] at hseg
    obtain ⟨m, h1, h2⟩ := (is_seg_append _ _ _ a ([y] ++ [x])).mp hseg
    have hm : m = some y.1 := h2.1
    refine (is_seg_append _ _ _ a [(y.1, { y.2 with next := none })]).mpr ⟨m, ?_, ?_⟩
    · refine is_seg_frame l.itempool _ _ _ a h1 ?_
      intro z hz
      rw [hget, if_neg (hnd.1 z hz).1, if_neg (hnd.1 z hz).2]
    · refine ⟨hm, ?_, rfl⟩
      show (store_next _ y.1 none)[y.1]? = _
      rw [hget, if_pos rfl]
  · show (store_next _ y.1 none)[x.1]? = _
    rw [hget, if_neg (fun e => hnd.2 e.symm), if_pos rfl]
  · show (store_next _ y.1 none)[y.1]? = _
    rw [hget, if_pos rfl]
  · intro i h1 h2
    show (store_next _ y.1 none)[i]? = _
    rw [hget, if_neg h2, if_neg h1]

/-- C15. On a list whose chain from `head` ends and has `n >= 2` nodes, `n`
being the count (every well-formed list with at least two nodes, whatever its
variant), `list_remove_last` returns 0; with `x` the tail of the old chain and
`y` its predecessor, the new chain is the old one without `x`, in the same
order, `y` now having `next` `NULL`; `head` is as before; the `ref` of `x` is
one less (modulo `2^32`; 0 when it was 1); the count is one less; the other
slots are unchanged. -/
theorem remove_last_contract (l : list_list) (c : List (Nat × list_item))
    (hc : list_chain l = some c) (hn : l.n = c.length) (h2 : 2 ≤ c.length) :
    ∃ a y x l1, c = a ++ [y, x] ∧ list_remove_last l = some (0, l1) ∧
      list_chain l1 = some (a ++ [(y.1, { y.2 with next := none })]) ∧
      l1.head = l.head ∧ l1.n = l.n - 1 ∧
      l1.itempool[x.1]? = some
        { x.2 with next := none, ref := (x.2.ref + UINT_RANGE - 1) % UINT_RANGE } ∧
      (x.2.ref = 1 → ∃ it, l1.itempool[x.1]? = some it ∧ it.ref = 0) ∧
      (∀ i, i ≠ x.1 → i ≠ y.1 → l1.itempool[i]? = l.itempool[i]?) := by
  obtain ⟨a, y, x, hax⟩ := exists_snoc2 c h2
  subst hax
  have hseg := (list_chain_iff l _).mp hc
  obtain ⟨l1, hr, hhead, hn1, _, _, _, hseg1, hx1, _, hrest⟩ :=
    remove_last_chain l a y x hseg (count_ne_int_min l.n _ hn)
  refine ⟨a, y, x, l1, rfl, hr, (list_chain_iff l1 _).mpr hseg1, hhead, hn1, hx1, ?_, hrest⟩
  intro href
  exact ⟨_, hx1, by simp [href, uint_dec_one]⟩

/-- Witness of C15: `list_remove_last` on the full list of `list_test` after
its appends, chain 123, 124, 125, 126, 127 in slots 0 to 4. -/
theorem remove_last_contract_witness :
    ∃ a y x l1, [(0, byte_item (some 1) 123), (1, byte_item (some 2) 124),
        (2, byte_item (some 3) 125), (3, byte_item (some 4) 126), (4, byte_item none 127)]
        = a ++ [y, x] ∧
      list_remove_last test_appended = some (0, l1) ∧
      list_chain l1 = some (a ++ [(y.1, { y.2 with next := none })]) ∧
      l1.head = test_appended.head ∧ l1.n = test_appended.n - 1 ∧
      l1.itempool[x.1]? = some
        { x.2 with next := none, ref := (x.2.ref + UINT_RANGE - 1) % UINT_RANGE } ∧
      (x.2.ref = 1 → ∃ it, l1.itempool[x.1]? = some it ∧ it.ref = 0) ∧
      (∀ i, i ≠ x.1 → i ≠ y.1 → l1.itempool[i]? = test_appended.itempool[i]?) :=
  remove_last_contract test_appended _ (by decide) (by decide) (by decide)

/-! ### C18: `list_get_last` -/

theorem get_last_empty (l : list_list) (out : Option list_item) (hh : l.head = none) :
    list_get_last l out = some (none, out) := by
  simp only [list_get_last, hh]

theorem get_last_chain (l : list_list) (a : List (Nat × list_item)) (x : Nat × list_item)
    (out : Option list_item) (hseg : is_seg l.itempool l.head (a ++ [x]) none) :
    list_get_last l out = some (some x.1,
      match out with
      | none => none
      | some o =>
        if l.type = LIST_BYTE then some x.2 else if l.type = LIST_MSG then some x.2 else some o)
    := by
  have hxget : l.itempool[x.1]? = some x.2 := is_seg_mem_get _ _ _ _ hseg x (by simp)
  have hlen := chain_length_le _ _ _ hseg
  obtain ⟨hd, hhd⟩ : ∃ hd, l.head = some hd := by
    cases a with
    | nil => exact ⟨x.1, hseg.1⟩
    | cons z r => exact ⟨z.1, hseg.1⟩
  have hw : walk_last l.itempool l.itempool.length hd = some x.1 := by
    rw [hhd] at hseg
    exact walk_last_chain _ a x _ hd hseg
      (by simp only [List.length_append, List.length_cons, List.length_nil] at hlen; omega)
  unfold list_get_last
  simp only [hhd, hw, hxget]
  cases out with
  | none => rfl
  | some o =>
    simp only []
    split
    · rfl
    · split <;> rfl

/-- C18. On a list whose chain from `head` ends (every well-formed list,
whatever its variant), `list_get_last` returns; its result is `NULL` exactly
when `head` is `NULL`, and otherwise the last slot of the chain.  With `out`
given and the tail `x` found, `out` holds the item of `x` afterwards when the
list is a byte or a message list, and is untouched for any other tag; a
`NULL` `out` stays `NULL`.  The function writes to nothing but `out`: its
embedding has no list to return. -/
theorem get_last_contract (l : list_list) (c : List (Nat × list_item))
    (out : Option list_item) (hc : list_chain l = some c) :
    ∃ r out1, list_get_last l out = some (r, out1) ∧
      (r = none ↔ l.head = none) ∧
      r = (c.getLast?).map Prod.fst ∧
      (l.head = none → out1 = out) ∧
      (out = none → out1 = none) ∧
      (∀ x o, c.getLast? = some x → out = some o →
        (l.type = LIST_BYTE ∨ l.type = LIST_MSG) → out1 = some x.2) ∧
      (l.type ≠ LIST_BYTE → l.type ≠ LIST_MSG → out1 = out) := by
  have hseg := (list_chain_iff l c).mp hc
  by_cases hnil : c = []
  · subst hnil
    have hh : l.head = none := hseg
    refine ⟨none, out, get_last_empty l out hh, by simp [hh], rfl, fun _ => rfl, fun h => h,
      ?_, fun _ _ => rfl⟩
    intro x o hx
    simp at hx
  · obtain ⟨a, x, hax⟩ := exists_snoc c hnil
    subst hax
    have hhd : l.head ≠ none := by
      intro h0
      exact hnil ((chain_nil_iff _ _ _ hseg).mpr h0)
    refine ⟨_, _, get_last_chain l a x out hseg, by simp [hhd], by simp,
      fun h0 => absurd h0 hhd, ?_, ?_, ?_⟩
    · intro h0
      rw [h0]
    · intro x1 o hx ho ht
      have hx1 : x1 = x := by
        simp at hx
        exact hx.symm
      subst hx1 ho
      rcases ht with ht | ht
      · simp [ht]
      · simp [ht]
    · intro h1 h2
      cases out with
      | none => rfl
      | some o => simp [h1, h2]

/-- Witness of C18: `list_get_last` with an `out` on the final byte list of
`list_test`, whose tail is the byte 100 in slot 4. -/
theorem get_last_contract_witness :
    list_chain test_final = some [(3, byte_item (some 2) 255), (2, byte_item (some 1) 2),
      (1, byte_item (some 0) 1), (0, byte_item (some 4) 0), (4, byte_item none 100)] ∧
    list_get_last test_final (some (zero_item (.byte 0)))
      = some (some 4, some (byte_item none 100)) ∧
    ∃ r out1, list_get_last test_final (some (zero_item (.byte 0))) = some (r, out1) ∧
      (r = none ↔ test_final.head = none) :=
  ⟨by decide, by decide,
   (get_last_contract test_final _ (some (zero_item (.byte 0)))
      (by decide : list_chain test_final = some [(3, byte_item (some 2) 255),
        (2, byte_item (some 1) 2), (1, byte_item (some 0) 1), (0, byte_item (some 4) 0),
        (4, byte_item none 100)])).imp
     fun _ h => h.imp fun _ h1 => ⟨h1.1, h1.2.1⟩⟩

/-! ### C20: well-formed byte lists -/

theorem well_formed_intro (l : list_list) (c : List (Nat × list_item))
    (hsize : l.poolsize ≤ l.itempool.length) (hseg : is_seg l.itempool l.head c none)
    (hn : l.n = c.length) (hin : ∀ x ∈ c, x.1 < l.poolsize ∧ x.2.ref = 1)
    (hout : ∀ i it, i < l.poolsize → l.itempool[i]? = some it → (∀ x ∈ c, x.1 ≠ i) →
      it.ref = 0) : well_formed l :=
  ⟨hsize, c, (list_chain_iff l c).mpr hseg, chain_nodup _ _ _ hseg, hn, hin, hout⟩

theorem well_formed_elim (l : list_list) (h : well_formed l) :
    l.poolsize ≤ l.itempool.length ∧
    ∃ c, is_seg l.itempool l.head c none ∧ l.n = c.length ∧
      (∀ x ∈ c, x.1 < l.poolsize ∧ x.2.ref = 1) ∧
      (∀ i it, i < l.poolsize → l.itempool[i]? = some it → (∀ x ∈ c, x.1 ≠ i) → it.ref = 0) := by
  obtain ⟨hsize, c, hc, _, hn, hin, hout⟩ := h
  exact ⟨hsize, c, (list_chain_iff l c).mp hc, hn, hin, hout⟩

theorem wf_reset (l l1 : list_list) (ht : l.type = LIST_BYTE) (h : list_reset l = some l1) :
    well_formed l1 ∧ l1.type = LIST_BYTE := by
  obtain ⟨hlen, rfl⟩ := reset_byte l l1 ht h
  refine ⟨well_formed_intro _ [] ?_ rfl rfl ?_ ?_, rfl⟩
  · show l.poolsize ≤ (List.replicate l.poolsize (zero_item (.byte 0))
      ++ l.itempool.drop l.poolsize).length
    simp
  · intro x hx
    simp at hx
  · intro i it hi hit _
    have hget : (List.replicate l.poolsize (zero_item (.byte 0))
        ++ l.itempool.drop l.poolsize)[i]? = some (zero_item (.byte 0)) := by
      rw [List.getElem?_append_left (by simpa using hi)]
      exact List.getElem?_replicate_of_lt hi
    have hit1 : (List.replicate l.poolsize (zero_item (.byte 0))
        ++ l.itempool.drop l.poolsize)[i]? = some it := hit
    rw [hget] at hit1
    cases hit1
    rfl

theorem wf_remove_first (l l1 : list_list) (code : Int) (hwf : well_formed l)
    (h : list_remove_first l = some (code, l1)) : well_formed l1 ∧ l1.type = l.type := by
  by_cases hc : code = 0
  · subst hc
    obtain ⟨hsize, c, hseg, hn, hin, hout⟩ := well_formed_elim l hwf
    obtain ⟨oldhead, it, hh, hit, _, hhead, hn1, ht1, hp1, hpool⟩ := remove_first_ok_shape l l1 h
    cases c with
    | nil =>
      have := (chain_nil_iff _ _ _ hseg).mp rfl
      rw [hh] at this
      simp at this
    | cons x rest =>
      have hx1 : x.1 = oldhead := by
        have := hseg.1
        rw [hh] at this
        exact (Option.some.inj this).symm
      have hx2 : x.2 = it := by
        have := hseg.2.1
        rw [hx1, hit] at this
        exact (Option.some.inj this).symm
      have hseg1 := remove_first_chain l l1 x rest hseg (by rw [hhead, hx2])
        (by rw [hpool, hx1, hx2])
      have hnd := chain_nodup _ _ _ hseg
      rw [List.map_cons, List.nodup_cons] at hnd
      have hlen : oldhead < l.itempool.length := (List.getElem?_eq_some.mp hit).1
      refine ⟨well_formed_intro l1 rest ?_ hseg1 ?_ ?_ ?_, ht1⟩
      · rw [hp1, hpool, List.length_set]
        exact hsize
      · rw [hn1, hn]
        simp only [List.length_cons, Nat.cast_add, Nat.cast_one]
        omega
      · intro y hy
        rw [hp1]
        exact hin y (List.mem_cons_of_mem x hy)
      · intro i it1 hi hit1 hnot
        rw [hp1] at hi
        rw [hpool] at hit1
        by_cases hio : i = oldhead
        · subst hio
          rw [List.getElem?_set_self hlen] at hit1
          cases hit1
          rfl
        · rw [List.getElem?_set_ne (fun e => hio e.symm)] at hit1
          refine hout i it1 hi hit1 ?_
          intro z hz
          rcases List.mem_cons.mp hz with hzx | hzr
          · rw [hzx, hx1]
            exact fun e => hio e.symm
          · exact hnot z hzr
  · rw [remove_first_error_unchanged l l1 code hc h]
    exact ⟨hwf, rfl⟩

theorem wf_remove_last (l l1 : list_list) (code : Int) (hwf : well_formed l)
    (h1 : l.n ≠ 1) (h : list_remove_last l = some (code, l1)) :
    well_formed l1 ∧ l1.type = l.type := by
  by_cases hc : code = 0
  · subst hc
    obtain ⟨hsize, c, hseg, hn, hin, hout⟩ := well_formed_elim l hwf
    have hhd : l.head ≠ none := by
      intro h0
      simp [list_remove_last, h0] at h
    have hne : c ≠ [] := fun h0 => hhd ((chain_nil_iff _ _ _ hseg).mp h0)
    have h2 : 2 ≤ c.length := by
      have h3 : c.length ≠ 0 := fun h0 => hne (List.length_eq_zero.mp h0)
      have h4 : c.length ≠ 1 := by
        intro h0
        rw [h0] at hn
        exact h1 (by simpa using hn)
      omega
    obtain ⟨a, y, x, hax⟩ := exists_snoc2 c h2
    subst hax
    obtain ⟨l2, hr, _, hn1, ht1, hp1, hpool, hseg1, hxget, _, hrest⟩ :=
      remove_last_chain l a y x hseg (count_ne_int_min l.n _ hn)
    rw [hr] at h
    have hl : l2 = l1 := by
      simp only [Option.some.injEq, Prod.mk.injEq, true_and] at h
      exact h
    subst hl
    have hxin := hin x (by simp)
    have hyin := hin y (by simp)
    refine ⟨well_formed_intro l2 _ ?_ hseg1 ?_ ?_ ?_, ht1⟩
    · rw [hp1, hpool, length_store_next, List.length_set]
      exact hsize
    · rw [hn1, hn]
      simp only [List.length_append, List.length_cons, List.length_nil, Nat.cast_add,
        Nat.cast_one]
      push_cast
      omega
    · intro z hz
      rw [hp1]
      rcases List.mem_append.mp hz with hza | hzy
      · exact hin z (by simp [hza])
      · have : z = (y.1, { y.2 with next := none }) := by simpa using hzy
        subst this
        exact ⟨hyin.1, hyin.2⟩
    · intro i it1 hi hit1 hnot
      rw [hp1] at hi
      by_cases hix : i = x.1
      · subst hix
        rw [hxget] at hit1
        cases hit1
        simp [hxin.2, uint_dec_one]
      · have hiy : i ≠ y.1 := by
          intro e
          exact hnot (y.1, { y.2 with next := none }) (by simp) e.symm
        rw [hrest i hix hiy] at hit1
        refine hout i it1 hi hit1 ?_
        intro z hz
        rcases List.mem_append.mp hz with hza | hzyx
        · exact hnot z (by simp [hza])
        · rcases List.mem_cons.mp hzyx with hzy | hzx
          · rw [hzy]
            exact fun e => hiy e.symm
          · have : z = x := by simpa using hzx
            rw [this]
            exact fun e => hix e.symm
  · rw [remove_last_error_unchanged l l1 code hc h]
    exact ⟨hwf, rfl⟩

theorem nodup_snoc (a : List (Nat × list_item)) (y : Nat × list_item)
    (h : ((a ++ [y]).map Prod.fst).Nodup) : ∀ z, z ∈ a → z.1 ≠ y.1 := by
  rw [List.map_append, List.nodup_append] at h
  intro z hz e
  exact h.2.2 (List.mem_map.mpr ⟨z, hz, rfl⟩) (by simp [e])

theorem wf_append (l l1 : list_list) (data : Option payload) (parm : Option Nat) (code : Int)
    (hwf : well_formed l) (ht : l.type = LIST_BYTE)
    (h : list_append l data parm = some (code, l1)) :
    well_formed l1 ∧ l1.type = l.type := by
  by_cases hc : code = 0
  · subst hc
    obtain ⟨hsize, c, hseg, hn, hin, hout⟩ := well_formed_elim l hwf
    obtain ⟨d, item, it, p1, _, hf, hit, hfill, _, hn1, ht1, hp1, hcases⟩ :=
      append_ok_shape l l1 data parm h
    obtain ⟨hlt, it0, hit0, href⟩ := find_avail_some l item hf
    rw [hit] at hit0
    cases hit0
    rw [ht] at hfill
    obtain ⟨b, _, hp1eq⟩ := fill_item_byte it p1 d parm none hfill
    have hp1ref : p1.ref = 1 := by rw [hp1eq]; simp [href, UINT_RANGE]
    have hp1next : p1.next = none := by rw [hp1eq]
    have hilen : item < l.itempool.length := (List.getElem?_eq_some.mp hit).1
    have hnotin : ∀ z, z ∈ c → z.1 ≠ item := by
      intro z hz e
      have hz2 := is_seg_mem_get _ _ _ _ hseg z hz
      rw [e, hit] at hz2
      have := (hin z hz).2
      rw [← Option.some.inj hz2, href] at this
      exact absurd this (by decide)
    rcases hcases with ⟨hh, hhead, hpool⟩ | ⟨hd, oldp, hh, hw, hhead, hpool⟩
    · have hnil : c = [] := (chain_nil_iff _ _ _ hseg).mpr hh
      subst hnil
      refine ⟨well_formed_intro l1 [(item, p1)] ?_ ?_ ?_ ?_ ?_, ht1⟩
      · rw [hp1, hpool, List.length_set]
        exact hsize
      · rw [hhead, hpool]
        exact ⟨rfl, List.getElem?_set_self hilen, hp1next⟩
      · rw [hn1, hn]
        simp
      · intro z hz
        have : z = (item, p1) := by simpa using hz
        subst this
        rw [hp1]
        exact ⟨hlt, hp1ref⟩
      · intro i it1 hi hit1 hnot
        rw [hp1] at hi
        have hne : item ≠ i := hnot (item, p1) (by simp)
        rw [hpool, List.getElem?_set_ne hne] at hit1
        exact hout i it1 hi hit1 (fun z hz => by simp at hz)
    · have hne : c ≠ [] := by
        intro h0
        have := (chain_nil_iff _ _ _ hseg).mp h0
        rw [hh] at this
        simp at this
      obtain ⟨a, y, hay⟩ := exists_snoc c hne
      subst hay
      have hnd := nodup_snoc a y (chain_nodup _ _ _ hseg)
      have hyget : l.itempool[y.1]? = some y.2 := is_seg_mem_get _ _ _ _ hseg y (by simp)
      have hyne : y.1 ≠ item := hnotin y (by simp)
      -- the chain is untouched by the write to the free slot
      have hsegA : is_seg (l.itempool.set item p1) (some hd) (a ++ [y]) none := by
        rw [← hh]
        refine is_seg_frame l.itempool _ _ _ _ hseg ?_
        intro z hz
        exact List.getElem?_set_ne (fun e => hnotin z hz e.symm)
      have holdp : oldp = y.1 := by
        have := walk_last_chain _ a y (l.itempool.set item p1).length hd hsegA (by
          have := chain_length_le _ _ _ hsegA
          simp only [List.length_append, List.length_cons, List.length_nil] at this
          exact this)
        rw [hw] at this
        exact Option.some.inj this
      subst holdp
      have hget : ∀ i, l1.itempool[i]?
          = if i = y.1 then some { y.2 with next := some item }
            else if i = item then some p1 else l.itempool[i]? := by
        intro i
        rw [hpool, getElem?_store_next]
        by_cases h1 : i = y.1
        · rw [if_pos h1, if_pos h1, List.getElem?_set_ne (fun e => hyne e.symm), hyget]
          rfl
        · rw [if_neg h1, if_neg h1]
          by_cases h2 : i = item
          · rw [if_pos h2, h2, List.getElem?_set_self hilen]
          · rw [if_neg h2, List.getElem?_set_ne (fun e => h2 e.symm)]
      have hyin := hin y (by simp)
      refine ⟨well_formed_intro l1
        (a ++ ([(y.1, { y.2 with next := some item })] ++ [(item, p1)])) ?_ ?_ ?_ ?_ ?_, ht1⟩
      · rw [hp1, hpool, length_store_next, List.length_set]
        exact hsize
      · obtain ⟨m, hm1, hm2⟩ := (is_seg_append _ _ _ a [y]).mp hseg
        have hm : m = some y.1 := hm2.1
        rw [hhead, ← hh]
        refine (is_seg_append _ _ _ a _).mpr ⟨m, ?_, ?_⟩
        · refine is_seg_frame l.itempool _ _ _ a hm1 ?_
          intro z hz
          rw [hget, if_neg (hnd z hz), if_neg (hnotin z (by simp [hz]))]
        · refine ⟨hm, ?_, rfl, ?_, hp1next⟩
          · show l1.itempool[y.1]? = _
            rw [hget, if_pos rfl]
          · show l1.itempool[item]? = _
            rw [hget, if_neg (fun e => hyne e.symm), if_pos rfl]
      · rw [hn1, hn]
        simp only [List.length_append, List.length_cons, List.length_nil]
        push_cast
        omega
      · intro z hz
        rw [hp1]
        rcases List.mem_append.mp hz with hza | hz2
        · exact hin z (by simp [hza])
        · rcases List.mem_append.mp hz2 with hzy | hzi
          · have : z = (y.1, { y.2 with next := some item }) := by simpa using hzy
            subst this
            exact ⟨hyin.1, hyin.2⟩
          · have : z = (item, p1) := by simpa using hzi
            subst this
            exact ⟨hlt, hp1ref⟩
      · intro i it1 hi hit1 hnot
        rw [hp1] at hi
        have hiy : i ≠ y.1 := fun e =>
          hnot (y.1, { y.2 with next := some item }) (by simp) e.symm
        have hii : i ≠ item := fun e => hnot (item, p1) (by simp) e.symm
        rw [hget, if_neg hiy, if_neg hii] at hit1
        refine hout i it1 hi hit1 ?_
        intro z hz
        rcases List.mem_append.mp hz with hza | hzy
        · exact hnot z (by simp [hza])
        · have : z = y := by simpa using hzy
          rw [this]
          exact fun e => hiy e.symm
  · rw [append_error_unchanged l l1 data parm code hc h]
    exact ⟨hwf, rfl⟩

theorem wf_prepend (l l1 : list_list) (data : Option payload) (parm : Option Nat) (code : Int)
    (hwf : well_formed l) (ht : l.type = LIST_BYTE)
    (h : list_prepend l data parm = some (code, l1)) :
    well_formed l1 ∧ l1.type = l.type := by
  by_cases hc : code = 0
  · subst hc
    rcases prepend_ok_shape l l1 data parm h with ⟨_, d, _, happ⟩ |
      ⟨d, oldhead, item, it, p1, _, hh, hf, hit, hfill, _, hn1, ht1, hp1, hhead, hpool⟩
    · exact wf_append l l1 (some d) none 0 hwf ht happ
    · obtain ⟨hsize, c, hseg, hn, hin, hout⟩ := well_formed_elim l hwf
      obtain ⟨hlt, it0, hit0, href⟩ := find_avail_some l item hf
      rw [hit] at hit0
      cases hit0
      rw [ht] at hfill
      obtain ⟨b, _, hp1eq⟩ := fill_item_byte it p1 d parm (some oldhead) hfill
      have hp1ref : p1.ref = 1 := by rw [hp1eq]; simp [href, UINT_RANGE]
      have hp1next : p1.next = some oldhead := by rw [hp1eq]
      have hilen : item < l.itempool.length := (List.getElem?_eq_some.mp hit).1
      have hnotin : ∀ z, z ∈ c → z.1 ≠ item := by
        intro z hz e
        have hz2 := is_seg_mem_get _ _ _ _ hseg z hz
        rw [e, hit] at hz2
        have := (hin z hz).2
        rw [← Option.some.inj hz2, href] at this
        exact absurd this (by decide)
      refine ⟨well_formed_intro l1 ((item, p1) :: c) ?_ ?_ ?_ ?_ ?_, ht1⟩
      · rw [hp1, hpool, List.length_set]
        exact hsize
      · rw [hhead, hpool]
        refine ⟨rfl, List.getElem?_set_self hilen, ?_⟩
        show is_seg _ p1.next c none
        rw [hp1next, ← hh]
        refine is_seg_frame l.itempool _ _ _ _ hseg ?_
        intro z hz
        exact List.getElem?_set_ne (fun e => hnotin z hz e.symm)
      · rw [hn1, hn]
        simp only [List.length_cons]
        push_cast
        omega
      · intro z hz
        rw [hp1]
        rcases List.mem_cons.mp hz with hzi | hzc
        · rw [hzi]
          exact ⟨hlt, hp1ref⟩
        · exact hin z hzc
      · intro i it1 hi hit1 hnot
        rw [hp1] at hi
        have hne : item ≠ i := hnot (item, p1) (by simp)
        rw [hpool, List.getElem?_set_ne hne] at hit1
        exact hout i it1 hi hit1 (fun z hz => hnot z (List.mem_cons_of_mem _ hz))
  · rw [prepend_error_unchanged l l1 data parm code hc h]
    exact ⟨hwf, rfl⟩

/-- C20. On a well-formed byte list (the chain from `head` ends, without
repetition, and has exactly `n` nodes; every chain node is a slot of the pool
with `ref == 1`; every other slot has `ref == 0`) the list after `list_reset`,
after `list_append`, `list_prepend` and `list_remove_first` with any arguments
and any return code, and after `list_remove_last` when the chain does not
have exactly one node (it is empty or has at least two), is again a
well-formed byte list. -/
theorem well_formed_preserved (l : list_list) (hwf : well_formed l) (ht : l.type = LIST_BYTE) :
    (∀ l1, list_reset l = some l1 → well_formed l1 ∧ l1.type = LIST_BYTE) ∧
    (∀ data parm code l1, list_append l data parm = some (code, l1) →
      well_formed l1 ∧ l1.type = LIST_BYTE) ∧
    (∀ data parm code l1, list_prepend l data parm = some (code, l1) →
      well_formed l1 ∧ l1.type = LIST_BYTE) ∧
    (∀ code l1, list_remove_first l = some (code, l1) →
      well_formed l1 ∧ l1.type = LIST_BYTE) ∧
    (∀ c code l1, list_chain l = some c → c.length ≠ 1 →
      list_remove_last l = some (code, l1) → well_formed l1 ∧ l1.type = LIST_BYTE) := by
  refine ⟨?_, ?_, ?_, ?_, ?_⟩
  · intro l1 h
    exact wf_reset l l1 ht h
  · intro data parm code l1 h
    have := wf_append l l1 data parm code hwf ht h
    exact ⟨this.1, by rw [this.2, ht]⟩
  · intro data parm code l1 h
    have := wf_prepend l l1 data parm code hwf ht h
    exact ⟨this.1, by rw [this.2, ht]⟩
  · intro code l1 h
    have := wf_remove_first l l1 code hwf h
    exact ⟨this.1, by rw [this.2, ht]⟩
  · intro c code l1 hc h1 h
    have hn1 : l.n ≠ 1 := by
      obtain ⟨_, c1, hc1, _, hn, _, _⟩ := hwf
      rw [hc] at hc1
      cases hc1
      intro h0
      rw [h0] at hn
      exact h1 (by exact_mod_cast hn.symm)
    have := wf_remove_last l l1 code hwf hn1 h
    exact ⟨this.1, by rw [this.2, ht]⟩

theorem well_formed_test_prepended : well_formed test_prepended := by
  refine well_formed_intro test_prepended
    [(4, byte_item (some 3) 4), (3, byte_item (some 2) 3), (2, byte_item (some 1) 2),
      (1, byte_item (some 0) 1), (0, byte_item none 0)] (by decide)
    ((list_chain_iff _ _).mp (by decide)) (by decide) ?_ ?_
  · intro x hx
    simp only [List.mem_cons, List.mem_singleton, List.not_mem_nil, or_false] at hx
    rcases hx with h | h | h | h | h <;> subst h <;> decide
  · intro i it hi _ hnot
    have hi5 : i < 5 := hi
    interval_cases i
    · exact absurd rfl (hnot (0, byte_item none 0) (by simp))
    · exact absurd rfl (hnot (1, byte_item (some 0) 1) (by simp))
    · exact absurd rfl (hnot (2, byte_item (some 1) 2) (by simp))
    · exact absurd rfl (hnot (3, byte_item (some 2) 3) (by simp))
    · exact absurd rfl (hnot (4, byte_item (some 3) 4) (by simp))

/-- Witness of C20: the full byte list of `list_test` after its prepends is
well-formed, and so are the lists that `list_remove_first` and
`list_remove_last` make of it. -/
theorem well_formed_preserved_witness :
    well_formed test_prepended ∧
    (∃ l1, list_remove_first test_prepended = some (0, l1) ∧ well_formed l1 ∧
      l1.type = LIST_BYTE) ∧
    (∃ l1, list_remove_last test_prepended = some (0, l1) ∧ well_formed l1 ∧
      l1.type = LIST_BYTE) :=
  ⟨well_formed_test_prepended,
   ⟨(⟨some 3, 4, LIST_BYTE, [byte_item none 0, byte_item (some 0) 1, byte_item (some 1) 2,
        byte_item (some 2) 3, zero_item (.byte 4)], 5⟩ : list_list),
    by decide,
    (well_formed_preserved test_prepended well_formed_test_prepended rfl).2.2.2.1 0 _
      (by decide)⟩,
   ⟨(⟨some 4, 4, LIST_BYTE, [zero_item (.byte 0), byte_item none 1, byte_item (some 1) 2,
        byte_item (some 2) 3, byte_item (some 3) 4], 5⟩ : list_list),
    by decide,
    (well_formed_preserved test_prepended well_formed_test_prepended rfl).2.2.2.2
      [(4, byte_item (some 3) 4), (3, byte_item (some 2) 3), (2, byte_item (some 1) 2),
        (1, byte_item (some 0) 1), (0, byte_item none 0)] 0 _ (by decide) (by decide)
      (by decide)⟩⟩

/-- The exception of C20 is real: the one-node list `byte_list_1_full` is
well-formed, and the list `list_remove_last` makes of it is not. -/
theorem remove_last_single_not_well_formed :
    well_formed byte_list_1_full ∧
    list_remove_last byte_list_1_full = some (0, byte_list_1_stale) ∧
    ¬ well_formed byte_list_1_stale := by
  refine ⟨?_, by decide, ?_⟩
  · refine well_formed_intro byte_list_1_full [(0, byte_item none 7)] (by decide)
      ((list_chain_iff _ _).mp (by decide)) (by decide) ?_ ?_
    · intro x hx
      have : x = (0, byte_item none 7) := by simpa using hx
      subst this
      decide
    · intro i it hi _ hnot
      have hi1 : i < 1 := hi
      interval_cases i
      exact absurd rfl (hnot (0, byte_item none 7) (by simp))
  · rintro ⟨_, c, hc, _, hn, _, _⟩
    have h1 : list_chain byte_list_1_stale
        = some [(0, { next := none, ref := 0, fields := .byte 7 })] := by decide
    rw [h1] at hc
    cases hc
    exact absurd hn (by decide)

theorem nodup_bounded_length (xs : List Nat) (n : Nat) (hnd : xs.Nodup)
    (hlt : ∀ x, x ∈ xs → x < n) : xs.length ≤ n := by
  have h1 : xs.toFinset.card = xs.length := List.toFinset_card_of_nodup hnd
  have h2 : xs.toFinset ⊆ Finset.range n := by
    intro x hx
    exact Finset.mem_range.mpr (hlt x (List.mem_toFinset.mp hx))
  have h3 := Finset.card_le_card h2
  rw [h1, Finset.card_range] at h3
  exact h3

theorem fill_byte_free_parm (it : list_item) (v : Nat) (parm nx : Option Nat)
    (href : it.ref = 0) :
    fill_item LIST_BYTE it (.byte v) parm nx
      = some (.ok { next := nx, ref := 1, fields := .byte v }) := by
  simp [fill_item, href, UINT_RANGE]

/-- The count of a well-formed list does not exceed its capacity. -/
theorem well_formed_count_le (l : list_list) (hwf : well_formed l) :
    l.n ≤ (l.poolsize : Int) ∧ 0 ≤ l.n := by
  obtain ⟨_, c, _, hnd, hn, hin, _⟩ := hwf
  have := nodup_bounded_length (c.map Prod.fst) l.poolsize hnd (by
    intro x hx
    obtain ⟨z, hz, rfl⟩ := List.mem_map.mp hx
    exact (hin z hz).1)
  rw [List.length_map] at this
  rw [hn]
  exact ⟨by exact_mod_cast this, by positivity⟩

/-- On a well-formed byte list every call returns: `list_reset`,
`list_remove_first`, `list_remove_last`, and `list_append` and `list_prepend`
of a byte with any `parm`. -/
theorem well_formed_calls_return (l : list_list) (hwf : well_formed l)
    (ht : l.type = LIST_BYTE) (hcap : l.poolsize ≤ USHRT_MAX) :
    (∃ l1, list_reset l = some l1) ∧
    (∀ v parm, ∃ r, list_append l (some (.byte v)) parm = some r) ∧
    (∀ v parm, ∃ r, list_prepend l (some (.byte v)) parm = some r) ∧
    (∃ r, list_remove_first l = some r) ∧
    (∃ r, list_remove_last l = some r) := by
  have hcount := well_formed_count_le l hwf
  obtain ⟨hsize, c, hseg, hn, hin, hout⟩ := well_formed_elim l hwf
  have hmax : l.n ≠ INT_MAX := by
    unfold INT_MAX
    unfold USHRT_MAX at hcap
    norm_num
    omega
  have hmin : l.n ≠ INT_MIN := count_ne_int_min l.n _ hn
  have happ : ∀ v parm, ∃ r, list_append l (some (.byte v)) parm = some r := by
    intro v parm
    obtain ⟨r, hr⟩ := scan_avail_defined l.itempool l.poolsize 0 (by omega)
    have hf : list_find_avail l = some r := by
      rw [find_avail_eq_scan l (Or.inl ht), hr]
    cases r with
    | none =>
      simp only [list_append, hf]
      exact ⟨_, rfl⟩
    | some item =>
      obtain ⟨_, _, it, hit, href⟩ := scan_avail_some _ _ _ _ hr
      have hfill := fill_byte_free_parm it v parm none href
      have hnotin : ∀ z, z ∈ c → z.1 ≠ item := by
        intro z hz e
        have hz2 := is_seg_mem_get _ _ _ _ hseg z hz
        rw [e, hit] at hz2
        have := (hin z hz).2
        rw [← Option.some.inj hz2, href] at this
        exact absurd this (by decide)
      cases hh : l.head with
      | none =>
        simp only [list_append, hf, hit, ht, hfill, if_neg hmax, hh]
        exact ⟨_, rfl⟩
      | some hd =>
        have hne : c ≠ [] := by
          intro h0
          have := (chain_nil_iff _ _ _ hseg).mp h0
          rw [hh] at this
          simp at this
        obtain ⟨a, y, hay⟩ := exists_snoc c hne
        subst hay
        have hsegA : is_seg (l.itempool.set item { next := none, ref := 1, fields := .byte v })
            (some hd) (a ++ [y]) none := by
          rw [← hh]
          refine is_seg_frame l.itempool _ _ _ _ hseg ?_
          intro z hz
          exact List.getElem?_set_ne (fun e => hnotin z hz e.symm)
        have hw := walk_last_chain _ a y
          (l.itempool.set item { next := none, ref := 1, fields := .byte v }).length hd hsegA (by
            have := chain_length_le _ _ _ hsegA
            simp only [List.length_append, List.length_cons, List.length_nil] at this
            exact this)
        simp only [list_append, hf, hit, ht, hfill, if_neg hmax, hh, hw]
        exact ⟨_, rfl⟩
  refine ⟨?_, happ, ?_, ?_, ?_⟩
  · obtain ⟨f, h1, _⟩ := reset_valid l (Or.inl ht) hsize
    exact ⟨_, h1⟩
  · intro v parm
    cases hh : l.head with
    | none =>
      obtain ⟨r, hr⟩ := happ v none
      exact ⟨r, by simp only [list_prepend, hh, hr]⟩
    | some oldhead =>
      obtain ⟨r, hr⟩ := scan_avail_defined l.itempool l.poolsize 0 (by omega)
      have hf : list_find_avail l = some r := by
        rw [find_avail_eq_scan l (Or.inl ht), hr]
      cases r with
      | none =>
        simp only [list_prepend, hh, hf]
        exact ⟨_, rfl⟩
      | some item =>
        obtain ⟨_, _, it, hit, href⟩ := scan_avail_some _ _ _ _ hr
        have hfill := fill_byte_free_parm it v parm (some oldhead) href
        simp only [list_prepend, hh, hf, hit, ht, hfill, if_neg hmax]
        exact ⟨_, rfl⟩
  · cases hh : l.head with
    | none =>
      simp only [list_remove_first, hh]
      exact ⟨_, rfl⟩
    | some h =>
      cases c with
      | nil =>
        have := (chain_nil_iff _ _ _ hseg).mp rfl
        rw [hh] at this
        simp at this
      | cons x rest =>
        have hx1 : x.1 = h := by
          have := hseg.1
          rw [hh] at this
          exact (Option.some.inj this).symm
        have hget := hseg.2.1
        rw [hx1] at hget
        obtain ⟨l1, hr, _⟩ := remove_first_returns l h x.2 hh hget hmin
        exact ⟨_, hr⟩
  · cases hh : l.head with
    | none =>
      simp only [list_remove_last, hh]
      exact ⟨_, rfl⟩
    | some h =>
      have hne : c ≠ [] := by
        intro h0
        have := (chain_nil_iff _ _ _ hseg).mp h0
        rw [hh] at this
        simp at this
      obtain ⟨a, x, hax⟩ := exists_snoc c hne
      subst hax
      have hxget : l.itempool[x.1]? = some x.2 := is_seg_mem_get _ _ _ _ hseg x (by simp)
      have hw : walk_last l.itempool l.itempool.length h = some x.1 := by
        rw [hh] at hseg
        exact walk_last_chain _ a x _ h hseg (by
          have := chain_length_le _ _ _ hseg
          simp only [List.length_append, List.length_cons, List.length_nil] at this
          exact this)
      rw [← walk_last_prev_snd l.itempool l.itempool.length none h] at hw
      cases hp : walk_last_prev l.itempool l.itempool.length none h with
      | none => simp [hp] at hw
      | some pr =>
        rw [hp] at hw
        have hpr : pr.2 = x.1 := by simpa using hw
        obtain ⟨prev, p⟩ := pr
        simp only at hpr
        subst hpr
        simp only [list_remove_last, hh, hp, hxget, if_neg hmin]
        exact ⟨_, rfl⟩

end SimpleList
